import Mathlib

/-
Verification of the retro-game-manager XML ingestion, indexing and query core.

The Rust sources are shallowly embedded as follows:
- an XML document is a list of stream events (start tag, self-closing tag,
  text, CDATA, comment, end tag), mirroring the event stream the quick-xml
  reader hands to the code; attributes are association lists of decoded
  key/value pairs, in document order;
- paths are represented by their file-name component (the only part the
  core ever inspects);
- Rust str operations (to_lowercase, trim, split, contains, lexicographic
  byte order) are re-implemented over List Char, the contents of a Lean
  String, so that every definition evaluates inside the kernel;
- the streaming parser of src/xml.rs is a fold of a step function over the
  event list, with a state record holding exactly the mutable locals of
  parse_games_from_file;
- the fragment extractor of src/xml.rs is a recursion over the event list
  whose output buffer is the list of events written, serialized at the end;
- load_index and filter_results of src/main.rs are modelled directly, with
  directory existence a boolean, the recursive directory walk an input list
  of (file name, is-file flag, read outcome) records, and the parallel
  parse a filterMap (parallel map with order-preserving collect);
- sort_unstable on Vec of String is embedded as insertion sort over the
  byte/codepoint order: on a total order all sorted arrangements of one
  multiset coincide, so the embedding is extensionally the source's sort.
-/

namespace RGM

/-- XML stream events, as delivered by the reader and consumed by both the
streaming parser and the fragment extractor. -/
inductive Event where
  | start (name : String) (attrs : List (String × String))
  | empty (name : String) (attrs : List (String × String))
  | text (s : String)
  | cdata (s : String)
  | comment (s : String)
  | endE (name : String)
deriving DecidableEq, Repr

/-- The GameEntry record of src/xml.rs. -/
structure GameEntry where
  platform : String
  name : String
  archive_name : Option String
  region : Option String
  languages : Option String
  file_path : String
  game_idx : Nat
deriving DecidableEq, Repr

/-- Eager disjunction on Option, the Rust Option::or. -/
def optOr (a b : Option String) : Option String :=
  match a with
  | some v => some v
  | none => b

/-- Rust str::to_lowercase, embedded characterwise. -/
def lowerS (s : String) : String := String.mk (s.data.map Char.toLower)

/-- Characters considered whitespace by trim. -/
def trimChars (l : List Char) : List Char :=
  ((l.dropWhile Char.isWhitespace).reverse.dropWhile Char.isWhitespace).reverse

/-- Rust str::trim. -/
def trimS (s : String) : String := String.mk (trimChars s.data)

/-- Splitting on a comma, the Rust str::split with separator comma. -/
def splitCommaAux : List Char → List Char → List String
  | [], acc => [String.mk acc.reverse]
  | c :: rest, acc =>
    if c = ',' then String.mk acc.reverse :: splitCommaAux rest []
    else splitCommaAux rest (c :: acc)

/-- Rust str::split on a comma separator. -/
def splitComma (s : String) : List String := splitCommaAux s.data []

/-- Does the second list occur as a leading segment of the first argument list. -/
def charsStartWith : List Char → List Char → Bool
  | [], _ => true
  | _ :: _, [] => false
  | a :: as, b :: bs => a == b && charsStartWith as bs

/-- Does needle occur contiguously inside hay. -/
def charsContain (hay needle : List Char) : Bool :=
  match hay with
  | [] => needle.isEmpty
  | _ :: rest => charsStartWith needle hay || charsContain rest needle

/-- Rust str::contains with a string pattern. -/
def strContains (hay needle : String) : Bool := charsContain hay.data needle.data

/-- Lexicographic codepoint order on character lists; for valid UTF-8 this
coincides with the byte order Rust uses to sort Vec of String. -/
def charsLe : List Char → List Char → Bool
  | [], _ => true
  | _ :: _, [] => false
  | a :: as, b :: bs =>
    if a.toNat < b.toNat then true
    else if b.toNat < a.toNat then false
    else charsLe as bs

/-- Byte/codepoint order on strings. -/
def strLe (a b : String) : Bool := charsLe a.data b.data

/-- Splits a character list at its last dot: returns the parts before and
after the last dot, or none when no dot occurs.  This mirrors the split the
Rust standard library performs to compute file_stem and extension. -/
def splitAtLastDot : List Char → Option (List Char × List Char)
  | [] => none
  | c :: rest =>
    match splitAtLastDot rest with
    | some (b, a) => some (c :: b, a)
    | none => if c = '.' then some ([], rest) else none

/-- Rust Path::file_stem on the file-name component: the part before the
last dot, except that a name whose only dot is a leading dot is its own
stem; none only when there is no file name at all (empty string). -/
def rust_file_stem (fname : String) : Option String :=
  if fname = "" then none
  else
    match splitAtLastDot fname.data with
    | some ([], _) => some fname
    | some (b, _) => some (String.mk b)
    | none => some fname

/-- Rust Path::extension on the file-name component: the part after the
last dot, provided something nonempty precedes that dot. -/
def rust_extension (fname : String) : Option String :=
  if fname = "" then none
  else
    match splitAtLastDot fname.data with
    | some ([], _) => none
    | some (_, a) => some (String.mk a)
    | none => none

/-- The character list up to but excluding the first occurrence of the
two-character pattern space-open-paren; the whole list when the pattern
does not occur.  This is the first element of the Rust split on the
literal string of a space followed by an open parenthesis. -/
def beforeSpaceParen : List Char → List Char
  | [] => []
  | c :: rest =>
    match rest with
    | [] => [c]
    | c2 :: _ =>
      if c = ' ' ∧ c2 = '(' then []
      else c :: beforeSpaceParen rest

/-- Does the space-open-paren pattern occur anywhere in the list. -/
def hasSpaceParen : List Char → Bool
  | [] => false
  | c :: rest =>
    match rest with
    | [] => false
    | c2 :: _ =>
      if c = ' ' ∧ c2 = '(' then true
      else hasSpaceParen rest

/-- infer_platform_from_filename of src/xml.rs: the stem of the file name,
cut before the first space-open-paren. -/
def infer_platform_from_filename (fname : String) : Option String :=
  (rust_file_stem fname).map (fun st => String.mk (beforeSpaceParen st.data))

/-- The mutable locals of parse_games_from_file in src/xml.rs. -/
structure PState where
  in_game : Bool
  current_game_name : Option String
  current_archive_region : Option String
  current_archive_languages : Option String
  current_archive_name : Option String
  current_game_region : Option String
  current_game_languages : Option String
  current_details_region : Option String
  game_idx_counter : Nat
  results : List GameEntry
deriving DecidableEq, Repr

/-- Initial parser state. -/
def initPState : PState :=
  { in_game := false
    current_game_name := none
    current_archive_region := none
    current_archive_languages := none
    current_archive_name := none
    current_game_region := none
    current_game_languages := none
    current_details_region := none
    game_idx_counter := 0
    results := [] }

/-- The attribute loop run on a game start tag. -/
def gameAttr (s : PState) (kv : String × String) : PState :=
  if kv.1 = "name" then { s with current_game_name := some kv.2 }
  else if kv.1 = "region" then { s with current_game_region := some kv.2 }
  else if kv.1 = "languages" then { s with current_game_languages := some kv.2 }
  else s

/-- The attribute loop run on an archive tag. -/
def archiveAttr (s : PState) (kv : String × String) : PState :=
  if kv.1 = "region" then { s with current_archive_region := some kv.2 }
  else if kv.1 = "languages" then { s with current_archive_languages := some kv.2 }
  else if kv.1 = "name" then { s with current_archive_name := some kv.2 }
  else s

/-- The attribute loop run on a details tag. -/
def detailsAttr (s : PState) (kv : String × String) : PState :=
  if kv.1 = "region" then { s with current_details_region := some kv.2 }
  else s

/-- Handling of an archive tag while inside a game. -/
def stepArchive (s : PState) (attrs : List (String × String)) : PState :=
  attrs.foldl archiveAttr s

/-- Handling of a details tag while inside a game: its region attribute is
captured only while neither the archive-level nor the game-level region
holder is set. -/
def stepDetails (s : PState) (attrs : List (String × String)) : PState :=
  if s.current_archive_region = none ∧ s.current_game_region = none then
    attrs.foldl detailsAttr s
  else s

/-- One iteration of the event loop of parse_games_from_file. -/
def step (platform file_path : String) (s : PState) (ev : Event) : PState :=
  match ev with
  | .start n attrs =>
    if n = "game" then
      let s1 := attrs.foldl gameAttr { s with in_game := true }
      { s1 with
        current_archive_region := none
        current_archive_languages := none
        current_archive_name := none
        current_details_region := none }
    else if n = "archive" ∧ s.in_game then stepArchive s attrs
    else if n = "details" ∧ s.in_game then stepDetails s attrs
    else s
  | .empty n attrs =>
    if n = "archive" ∧ s.in_game then stepArchive s attrs
    else if n = "details" ∧ s.in_game then stepDetails s attrs
    else s
  | .endE n =>
    if n = "game" then
      match s.current_game_name with
      | some nm =>
        { in_game := false
          current_game_name := none
          current_archive_region := none
          current_archive_languages := none
          current_archive_name := none
          current_game_region := none
          current_game_languages := none
          current_details_region := none
          game_idx_counter := s.game_idx_counter + 1
          results := s.results ++
            [{ platform := platform
               name := nm
               archive_name := s.current_archive_name
               region := optOr s.current_archive_region
                 (optOr s.current_game_region s.current_details_region)
               languages := optOr s.current_archive_languages s.current_game_languages
               file_path := file_path
               game_idx := s.game_idx_counter }] }
      | none => { s with in_game := false, current_game_name := none }
    else s
  | .text _ => s
  | .cdata _ => s
  | .comment _ => s

/-- The final parser state after the event loop. -/
def parseState (fname : String) (events : List Event) : PState :=
  let platform := (infer_platform_from_filename fname).getD "Unknown"
  events.foldl (step platform fname) initPState

/-- parse_games_from_file of src/xml.rs, on an already-tokenised event
stream: the list of emitted GameEntry values. -/
def parse_games_from_file (fname : String) (events : List Event) : List GameEntry :=
  (parseState fname events).results

/-! Basic lemmas about the step function. -/

theorem step_empty_game (platform fp : String) (s : PState) (attrs : List (String × String)) :
    step platform fp s (.empty "game" attrs) = s := by
  simp [step]

theorem step_text (platform fp : String) (s : PState) (t : String) :
    step platform fp s (.text t) = s := rfl

theorem step_cdata (platform fp : String) (s : PState) (t : String) :
    step platform fp s (.cdata t) = s := rfl

theorem step_comment (platform fp : String) (s : PState) (t : String) :
    step platform fp s (.comment t) = s := rfl

theorem step_end_other (platform fp : String) (s : PState) (n : String) (h : n ≠ "game") :
    step platform fp s (.endE n) = s := by
  simp [step, h]

/-! Lemmas about the pattern cut used by platform inference. -/

theorem beforeSpaceParen_append : ∀ l : List Char,
    ∃ t, l = beforeSpaceParen l ++ t ∧ (t = [] ∨ ∃ u, t = ' ' :: '(' :: u) := by
  intro l
  induction l with
  | nil => exact ⟨[], rfl, .inl rfl⟩
  | cons c rest ih =>
    cases rest with
    | nil => exact ⟨[], by simp [beforeSpaceParen], .inl rfl⟩
    | cons c2 r2 =>
      by_cases h : c = ' ' ∧ c2 = '('
      · exact ⟨c :: c2 :: r2, by simp [beforeSpaceParen, h], .inr ⟨r2, by rw [h.1, h.2]⟩⟩
      · obtain ⟨t, ht, hor⟩ := ih
        refine ⟨t, ?_, hor⟩
        simp only [beforeSpaceParen, if_neg h, List.cons_append]
        exact congrArg (c :: ·) ht

theorem beforeSpaceParen_shape (c2 : Char) (r2 : List Char) :
    beforeSpaceParen (c2 :: r2) = [] ∨ ∃ tl, beforeSpaceParen (c2 :: r2) = c2 :: tl := by
  cases r2 with
  | nil => exact .inr ⟨[], rfl⟩
  | cons c3 r3 =>
    by_cases h : c2 = ' ' ∧ c3 = '('
    · exact .inl (by simp [beforeSpaceParen, h])
    · exact .inr ⟨beforeSpaceParen (c3 :: r3), by simp [beforeSpaceParen, h]⟩

theorem beforeSpaceParen_cons₂ (c c2 : Char) (r2 : List Char) (h : ¬(c = ' ' ∧ c2 = '(')) :
    beforeSpaceParen (c :: c2 :: r2) = c :: beforeSpaceParen (c2 :: r2) := by
  simp [beforeSpaceParen, h]

theorem hasSpaceParen_cons₂ (c c2 : Char) (r2 : List Char) (h : ¬(c = ' ' ∧ c2 = '(')) :
    hasSpaceParen (c :: c2 :: r2) = hasSpaceParen (c2 :: r2) := by
  simp [hasSpaceParen, h]

theorem hasSpaceParen_beforeSpaceParen : ∀ l : List Char,
    hasSpaceParen (beforeSpaceParen l) = false := by
  intro l
  induction l with
  | nil => rfl
  | cons c rest ih =>
    cases rest with
    | nil => rfl
    | cons c2 r2 =>
      by_cases h : c = ' ' ∧ c2 = '('
      · simp [beforeSpaceParen, h, hasSpaceParen]
      · rw [beforeSpaceParen_cons₂ c c2 r2 h]
        rcases beforeSpaceParen_shape c2 r2 with h0 | ⟨tl, htl⟩
        · rw [h0]; rfl
        · rw [htl]
          rw [htl] at ih
          rw [hasSpaceParen_cons₂ c c2 tl h]
          exact ih

/-- Claim C9: platform inference returns the portion of the
filename-without-extension preceding the first occurrence of the literal
substring space-open-paren, or the whole stem if that substring does not
occur, and falls back to the literal string Unknown when the path has no
stem.  The returned string r is characterised as: r is an initial segment
of the stem not containing the pattern, and the remainder is either empty
or starts with the pattern. -/
theorem C9_platform_inference (fname : String) :
    (rust_file_stem fname = none →
       (infer_platform_from_filename fname).getD "Unknown" = "Unknown") ∧
    (∀ st, rust_file_stem fname = some st →
       ∃ t, st.data = ((infer_platform_from_filename fname).getD "Unknown").data ++ t ∧
         hasSpaceParen ((infer_platform_from_filename fname).getD "Unknown").data = false ∧
         (t = [] ∨ ∃ u, t = ' ' :: '(' :: u)) := by
  constructor
  · intro h
    simp [infer_platform_from_filename, h]
  · intro st h
    simp only [infer_platform_from_filename, h, Option.map_some, Option.getD_some]
    obtain ⟨t, ht, hor⟩ := beforeSpaceParen_append st.data
    exact ⟨t, ht, hasSpaceParen_beforeSpaceParen st.data, hor⟩

/-- Witness for claim C9 at the concrete file name of an NES database. -/
theorem C9_platform_inference_witness :
    ∃ t, ("NES (US)" : String).data =
        ((infer_platform_from_filename "NES (US).xml").getD "Unknown").data ++ t ∧
      hasSpaceParen ((infer_platform_from_filename "NES (US).xml").getD "Unknown").data = false ∧
      (t = [] ∨ ∃ u, t = ' ' :: '(' :: u) :=
  (C9_platform_inference "NES (US).xml").2 "NES (US)" (by decide)

/-- Claim C10: a self-closing game element is invisible to the streaming
parser: deleting it from the event stream does not change the parse result
at all, so it emits no entry and does not advance the index counter, even
when it carries name, region or languages attributes. -/
theorem C10_selfclosing_game_invisible (fname : String) (attrs : List (String × String))
    (xs ys : List Event) :
    parse_games_from_file fname (xs ++ Event.empty "game" attrs :: ys) =
    parse_games_from_file fname (xs ++ ys) := by
  simp only [parse_games_from_file, parseState, List.foldl_append, List.foldl_cons,
    step_empty_game]

/-- Claim C6, amended: when the parser leaves a game element for which an
entry was emitted (a game-level name was captured), the inside-game flag
and every holder are cleared; but when no entry was emitted, only the
inside-game flag and the name holder are cleared, and the archive-level,
details-level and remaining game-level holders persist, with no entry
appended. -/
theorem C6_amended (platform fp : String) (s : PState) :
    ((step platform fp s (.endE "game")).in_game = false ∧
     (step platform fp s (.endE "game")).current_game_name = none) ∧
    (s.current_game_name ≠ none →
       (step platform fp s (.endE "game")).current_archive_region = none ∧
       (step platform fp s (.endE "game")).current_archive_languages = none ∧
       (step platform fp s (.endE "game")).current_archive_name = none ∧
       (step platform fp s (.endE "game")).current_game_region = none ∧
       (step platform fp s (.endE "game")).current_game_languages = none ∧
       (step platform fp s (.endE "game")).current_details_region = none) ∧
    (s.current_game_name = none →
       (step platform fp s (.endE "game")).current_archive_region = s.current_archive_region ∧
       (step platform fp s (.endE "game")).current_archive_languages
         = s.current_archive_languages ∧
       (step platform fp s (.endE "game")).current_archive_name = s.current_archive_name ∧
       (step platform fp s (.endE "game")).current_game_region = s.current_game_region ∧
       (step platform fp s (.endE "game")).current_game_languages = s.current_game_languages ∧
       (step platform fp s (.endE "game")).current_details_region = s.current_details_region ∧
       (step platform fp s (.endE "game")).results = s.results) := by
  cases h : s.current_game_name with
  | some nm => simp [step, h]
  | none => simp [step, h]

/-! The query engine: filter_results of src/main.rs. -/

/-- filter_results of src/main.rs: conjunctive filtering over the entry
list, result capped at 1000. -/
def filter_results (index : List GameEntry) (query : String) (platforms : List String)
    (region language : String) : List GameEntry :=
  let q := lowerS (trimS query)
  let r := lowerS (trimS region)
  let l := lowerS (trimS language)
  (index.filter (fun g =>
    (q == "" || (strContains (lowerS g.name) q ||
        (g.archive_name.map (fun n => strContains (lowerS n) q)).getD false)) &&
    (platforms.isEmpty || platforms.contains g.platform) &&
    (r == "" || (g.region.map (fun v => strContains (lowerS v) r)).getD false) &&
    (l == "" || (g.languages.map (fun v =>
        (splitComma v).any (fun s => lowerS (trimS s) == l))).getD false))).take 1000

/-- The second string occurs contiguously inside the first. -/
def SubstrP (needle hay : String) : Prop :=
  ∃ pre post, hay.data = pre ++ needle.data ++ post

theorem charsStartWith_iff (n h : List Char) :
    charsStartWith n h = true ↔ ∃ t, h = n ++ t := by
  induction n generalizing h with
  | nil => simp [charsStartWith]
  | cons a as ih =>
    cases h with
    | nil => simp [charsStartWith]
    | cons b bs =>
      simp only [charsStartWith, Bool.and_eq_true, beq_iff_eq, ih, List.cons_append]
      constructor
      · rintro ⟨rfl, t, rfl⟩
        exact ⟨t, rfl⟩
      · rintro ⟨t, ht⟩
        obtain ⟨h1, h2⟩ := List.cons.inj ht
        exact ⟨h1.symm, t, h2⟩

theorem charsContain_iff (hay needle : List Char) :
    charsContain hay needle = true ↔ ∃ pre post, hay = pre ++ needle ++ post := by
  induction hay with
  | nil =>
    simp only [charsContain, List.isEmpty_iff]
    constructor
    · rintro rfl
      exact ⟨[], [], rfl⟩
    · rintro ⟨pre, post, h⟩
      rcases List.append_eq_nil.mp (List.append_eq_nil.mp h.symm).1 with ⟨-, h2⟩
      exact h2
  | cons c rest ih =>
    simp only [charsContain, Bool.or_eq_true]
    constructor
    · rintro (hs | hc)
      · obtain ⟨t, ht⟩ := (charsStartWith_iff needle (c :: rest)).mp hs
        exact ⟨[], t, by simpa using ht⟩
      · obtain ⟨pre, post, h⟩ := ih.mp hc
        exact ⟨c :: pre, post, by simp [h]⟩
    · rintro ⟨pre, post, h⟩
      cases pre with
      | nil =>
        exact .inl ((charsStartWith_iff needle (c :: rest)).mpr ⟨post, by simpa using h⟩)
      | cons p ps =>
        obtain ⟨-, h2⟩ := List.cons.inj h
        exact .inr (ih.mpr ⟨ps, post, h2⟩)

theorem strContains_iff (hay needle : String) :
    strContains hay needle = true ↔ SubstrP needle hay :=
  charsContain_iff hay.data needle.data

instance (needle hay : String) : Decidable (SubstrP needle hay) :=
  decidable_of_iff (strContains hay needle = true) (strContains_iff hay needle)

theorem lowerS_eq_empty (s : String) : lowerS s = "" ↔ s = "" := by
  cases s with
  | mk data =>
    cases data <;> simp [lowerS, String.ext_iff]

instance optWitnessDec (o : Option String) (p : String → Prop) [DecidablePred p] :
    Decidable (∃ x, o = some x ∧ p x) :=
  match o with
  | none => isFalse (by rintro ⟨x, h, -⟩; exact Option.noConfusion h)
  | some v =>
    decidable_of_iff (p v) (by
      constructor
      · intro h
        exact ⟨v, rfl, h⟩
      · rintro ⟨x, hx, h⟩
        obtain rfl := Option.some.inj hx
        exact h)

/-- The matching predicate of claim C3 as amended: each textual criterion
is first trimmed and lowercased, and a criterion is empty when its trimmed
value is empty; free text is a case-insensitive substring of the name or
of the archive name when present; platform is exact set membership; region
is a case-insensitive substring of the region when present; language must
equal, after trim and lowercase, at least one comma-split token of the
languages field when present. -/
def AmendedMatches (query : String) (platforms : List String) (region language : String)
    (g : GameEntry) : Prop :=
  (trimS query = "" ∨ SubstrP (lowerS (trimS query)) (lowerS g.name) ∨
     ∃ an, g.archive_name = some an ∧ SubstrP (lowerS (trimS query)) (lowerS an)) ∧
  (platforms = [] ∨ g.platform ∈ platforms) ∧
  (trimS region = "" ∨ ∃ rv, g.region = some rv ∧ SubstrP (lowerS (trimS region)) (lowerS rv)) ∧
  (trimS language = "" ∨ ∃ lv, g.languages = some lv ∧
     lowerS (trimS language) ∈ (splitComma lv).map (fun s => lowerS (trimS s)))

instance amendedMatchesDec (query : String) (platforms : List String)
    (region language : String) (g : GameEntry) :
    Decidable (AmendedMatches query platforms region language g) := by
  unfold AmendedMatches
  infer_instance

theorem optMap_getD_eq_true (o : Option String) (f : String → Bool) :
    ((o.map f).getD false = true) ↔ ∃ v, o = some v ∧ f v = true := by
  cases o <;> simp

theorem bool_eq_decide (a : Bool) (p : Prop) [Decidable p] (h : a = true ↔ p) :
    a = decide p := by
  cases a with
  | true => exact (decide_eq_true (h.mp rfl)).symm
  | false =>
    refine (decide_eq_false fun hp => ?_).symm
    have := h.mpr hp
    simp at this

theorem amended_pointwise (query : String) (platforms : List String) (region language : String)
    (g : GameEntry) :
    ((lowerS (trimS query) == "" || (strContains (lowerS g.name) (lowerS (trimS query)) ||
        (g.archive_name.map (fun n => strContains (lowerS n) (lowerS (trimS query)))).getD
          false)) &&
     (platforms.isEmpty || platforms.contains g.platform) &&
     (lowerS (trimS region) == "" ||
        (g.region.map (fun v => strContains (lowerS v) (lowerS (trimS region)))).getD false) &&
     (lowerS (trimS language) == "" || (g.languages.map (fun v =>
        (splitComma v).any (fun s => lowerS (trimS s) == lowerS (trimS language)))).getD false))
      = true
    ↔ AmendedMatches query platforms region language g := by
  unfold AmendedMatches
  simp only [Bool.and_eq_true, Bool.or_eq_true, beq_iff_eq, lowerS_eq_empty,
    optMap_getD_eq_true, strContains_iff, List.any_eq_true, List.mem_map,
    List.isEmpty_iff, List.elem_iff]
  tauto

/-- Claim C3, amended: the query engine returns, in index order, exactly
the first 1000 entries satisfying every criterion of the amended matching
predicate. -/
theorem C3_amended (index : List GameEntry) (query : String) (platforms : List String)
    (region language : String) :
    filter_results index query platforms region language =
      (index.filter (fun g =>
        decide (AmendedMatches query platforms region language g))).take 1000 := by
  unfold filter_results
  dsimp only
  congr 1
  apply List.filter_congr
  intro g _
  exact bool_eq_decide _ _ (amended_pointwise query platforms region language g)

/-- The entry of the C3 counterexample. -/
def c3Entry : GameEntry :=
  { platform := "NES"
    name := "mario kart"
    archive_name := none
    region := none
    languages := none
    file_path := "NES.xml"
    game_idx := 0 }

/-- Counterexample to claim C3 as stated: with the raw free-text criterion
of a space, mario, space, the engine returns the entry named mario kart,
yet that entry does not satisfy the claimed free-text criterion (the raw
criterion string, which is not empty, is not a case-insensitive substring
of the name, and there is no archive name), because the code trims the
criterion before matching while the claim states no such trimming. -/
theorem C3_counterexample :
    filter_results [c3Entry] " mario " [] "" "" = [c3Entry] ∧
    ¬ ((" mario " : String) = "" ∨ SubstrP (lowerS " mario ") (lowerS c3Entry.name) ∨
        ∃ an, c3Entry.archive_name = some an ∧ SubstrP (lowerS " mario ") (lowerS an)) := by
  constructor
  · decide
  · rintro (h | h | hex)
    · exact absurd h (by decide)
    · exact absurd ((strContains_iff _ _).mpr h) (by decide)
    · obtain ⟨an, han, -⟩ := hex
      simp [c3Entry] at han

/-! Order lemmas for the byte/codepoint comparison, and the sorting and
adjacent-deduplication used to build facet lists. -/

theorem charsLe_cons_lt {a b : Char} (as bs : List Char) (h : a.toNat < b.toNat) :
    charsLe (a :: as) (b :: bs) = true := by
  simp [charsLe, h]

theorem charsLe_cons_gt {a b : Char} (as bs : List Char) (h : b.toNat < a.toNat) :
    charsLe (a :: as) (b :: bs) = false := by
  simp [charsLe, h, Nat.lt_asymm h]

theorem charsLe_cons_eq {a b : Char} (as bs : List Char) (h : a.toNat = b.toNat) :
    charsLe (a :: as) (b :: bs) = charsLe as bs := by
  simp [charsLe, h]

theorem charsLe_total : ∀ a b : List Char, charsLe a b = true ∨ charsLe b a = true
  | [], _ => .inl rfl
  | _ :: _, [] => .inr rfl
  | a :: as, b :: bs => by
    rcases Nat.lt_trichotomy a.toNat b.toNat with h | h | h
    · exact .inl (charsLe_cons_lt as bs h)
    · rw [charsLe_cons_eq as bs h, charsLe_cons_eq bs as h.symm]
      exact charsLe_total as bs
    · exact .inr (charsLe_cons_lt bs as h)

theorem charsLe_trans : ∀ a b c : List Char,
    charsLe a b = true → charsLe b c = true → charsLe a c = true
  | [], _, _, _, _ => rfl
  | _ :: _, [], _, h1, _ => by simp [charsLe] at h1
  | _ :: _, _ :: _, [], _, h2 => by simp [charsLe] at h2
  | a :: as, b :: bs, c :: cs, h1, h2 => by
    rcases Nat.lt_trichotomy a.toNat b.toNat with hab | hab | hab
    · rcases Nat.lt_trichotomy b.toNat c.toNat with hbc | hbc | hbc
      · exact charsLe_cons_lt as cs (hab.trans hbc)
      · exact charsLe_cons_lt as cs (hbc ▸ hab)
      · rw [charsLe_cons_gt bs cs hbc] at h2
        exact absurd h2 (by simp)
    · rcases Nat.lt_trichotomy b.toNat c.toNat with hbc | hbc | hbc
      · exact charsLe_cons_lt as cs (hab ▸ hbc)
      · rw [charsLe_cons_eq as cs (hab.trans hbc)]
        rw [charsLe_cons_eq as bs hab] at h1
        rw [charsLe_cons_eq bs cs hbc] at h2
        exact charsLe_trans as bs cs h1 h2
      · rw [charsLe_cons_gt bs cs hbc] at h2
        exact absurd h2 (by simp)
    · rw [charsLe_cons_gt as bs hab] at h1
      exact absurd h1 (by simp)

theorem charsLe_antisymm : ∀ a b : List Char,
    charsLe a b = true → charsLe b a = true → a = b
  | [], [], _, _ => rfl
  | [], _ :: _, _, h2 => by simp [charsLe] at h2
  | _ :: _, [], h1, _ => by simp [charsLe] at h1
  | a :: as, b :: bs, h1, h2 => by
    rcases Nat.lt_trichotomy a.toNat b.toNat with h | h | h
    · rw [charsLe_cons_gt bs as h] at h2
      exact absurd h2 (by simp)
    · have hab : a = b := Char.eq_of_val_eq (UInt32.toNat.inj h)
      subst hab
      rw [charsLe_cons_eq as bs rfl] at h1
      rw [charsLe_cons_eq bs as rfl] at h2
      rw [charsLe_antisymm as bs h1 h2]
    · rw [charsLe_cons_gt as bs h] at h1
      exact absurd h1 (by simp)

theorem strLe_total (a b : String) : strLe a b = true ∨ strLe b a = true :=
  charsLe_total a.data b.data

theorem strLe_trans (a b c : String) (h1 : strLe a b = true) (h2 : strLe b c = true) :
    strLe a c = true :=
  charsLe_trans a.data b.data c.data h1 h2

theorem strLe_antisymm (a b : String) (h1 : strLe a b = true) (h2 : strLe b a = true) :
    a = b := by
  cases a with
  | mk da =>
    cases b with
    | mk db =>
      rw [charsLe_antisymm da db h1 h2]

/-- Insertion into a list sorted by the byte/codepoint order. -/
def insertSorted (a : String) : List String → List String
  | [] => [a]
  | b :: rest => if strLe a b then a :: b :: rest else b :: insertSorted a rest

/-- Sorting by the byte/codepoint order.  The source uses sort_unstable on
a Vec of String; on a total order every sorted arrangement of one multiset
of strings is the same list, so this insertion sort is extensionally the
sort the source performs. -/
def sortS : List String → List String
  | [] => []
  | a :: rest => insertSorted a (sortS rest)

/-- Rust Vec::dedup: removes consecutive repeated elements. -/
def dedupAdj : List String → List String
  | [] => []
  | [a] => [a]
  | a :: b :: rest => if a = b then dedupAdj (b :: rest) else a :: dedupAdj (b :: rest)

theorem mem_insertSorted (a x : String) : ∀ l, x ∈ insertSorted a l ↔ x = a ∨ x ∈ l
  | [] => by simp [insertSorted]
  | b :: rest => by
    by_cases h : strLe a b = true
    · simp only [insertSorted, if_pos h]
      simp
    · simp only [insertSorted, if_neg h]
      simp [mem_insertSorted a x rest]
      tauto

theorem sorted_insertSorted (a : String) : ∀ l,
    List.Pairwise (fun x y => strLe x y = true) l →
    List.Pairwise (fun x y => strLe x y = true) (insertSorted a l)
  | [], _ => by simp [insertSorted]
  | b :: rest, hp => by
    obtain ⟨hb, hrest⟩ := List.pairwise_cons.mp hp
    by_cases h : strLe a b = true
    · rw [insertSorted, if_pos h]
      refine List.Pairwise.cons ?_ (List.Pairwise.cons hb hrest)
      intro x hx
      rcases List.mem_cons.mp hx with rfl | hx
      · exact h
      · exact strLe_trans a b x h (hb x hx)
    · rw [insertSorted, if_neg h]
      refine List.Pairwise.cons ?_ (sorted_insertSorted a rest hrest)
      intro x hx
      rcases (mem_insertSorted a x rest).mp hx with rfl | hx
      · rcases strLe_total x b with h' | h'
        · exact absurd h' h
        · exact h'
      · exact hb x hx

theorem mem_sortS (x : String) : ∀ l, x ∈ sortS l ↔ x ∈ l
  | [] => by simp [sortS]
  | a :: rest => by
    rw [sortS, mem_insertSorted a x (sortS rest), mem_sortS x rest]
    simp

theorem sorted_sortS : ∀ l, List.Pairwise (fun x y => strLe x y = true) (sortS l)
  | [] => by simp [sortS]
  | a :: rest => sorted_insertSorted a (sortS rest) (sorted_sortS rest)

theorem dedupAdj_cons₂ (a b : String) (rest : List String) :
    dedupAdj (a :: b :: rest) =
      if a = b then dedupAdj (b :: rest) else a :: dedupAdj (b :: rest) := rfl

theorem mem_dedupAdj (x : String) : ∀ l, x ∈ dedupAdj l ↔ x ∈ l
  | [] => by simp [dedupAdj]
  | [a] => by simp [dedupAdj]
  | a :: b :: rest => by
    by_cases h : a = b
    · subst h
      rw [dedupAdj_cons₂, if_pos rfl, mem_dedupAdj x (a :: rest)]
      simp
    · rw [dedupAdj_cons₂, if_neg h]
      simp only [List.mem_cons, mem_dedupAdj x (b :: rest)]

theorem pairwise_lt_dedupAdj : ∀ l,
    List.Pairwise (fun x y => strLe x y = true) l →
    List.Pairwise (fun x y => strLe x y = true ∧ x ≠ y) (dedupAdj l)
  | [], _ => by simp [dedupAdj]
  | [a], _ => by simp [dedupAdj]
  | a :: b :: rest, hp => by
    obtain ⟨ha, hp'⟩ := List.pairwise_cons.mp hp
    by_cases h : a = b
    · subst h
      rw [dedupAdj_cons₂, if_pos rfl]
      exact pairwise_lt_dedupAdj (a :: rest) hp'
    · rw [dedupAdj_cons₂, if_neg h]
      refine List.Pairwise.cons ?_ (pairwise_lt_dedupAdj (b :: rest) hp')
      intro x hx
      have hx' : x ∈ b :: rest := (mem_dedupAdj x (b :: rest)).mp hx
      refine ⟨ha x hx', ?_⟩
      rintro rfl
      obtain ⟨hb, -⟩ := List.pairwise_cons.mp hp'
      rcases List.mem_cons.mp hx' with h' | h'
      · exact h h'
      · exact h (strLe_antisymm a b (ha b (List.mem_cons_self b rest)) (hb a h'))

theorem sorted_dedupAdj (l : List String)
    (hp : List.Pairwise (fun x y => strLe x y = true) l) :
    List.Pairwise (fun x y => strLe x y = true) (dedupAdj l) :=
  (pairwise_lt_dedupAdj l hp).imp (fun h => h.1)

theorem nodup_dedupAdj (l : List String)
    (hp : List.Pairwise (fun x y => strLe x y = true) l) :
    (dedupAdj l).Nodup :=
  (pairwise_lt_dedupAdj l hp).imp (fun h => h.2)

/-! The index builder: load_index of src/main.rs. -/

/-- The platforms facet: project, sort, dedup (no trim, no empty filter). -/
def platformFacet (games : List GameEntry) : List String :=
  dedupAdj (sortS (games.map (fun g => g.platform)))

/-- The regions facet: project present regions, trim, drop empties, sort,
dedup. -/
def regionFacet (games : List GameEntry) : List String :=
  dedupAdj (sortS ((games.filterMap (fun g => g.region.map (fun s => trimS s))).filter
    (fun s => !(s == ""))))

/-- The languages facet: project present languages, split each on comma,
trim each token, drop empties, sort, dedup. -/
def languageFacet (games : List GameEntry) : List String :=
  dedupAdj (sortS ((((games.filterMap (fun g => g.languages)).flatMap splitComma).map
    (fun s => trimS s)).filter (fun s => !(s == ""))))

/-- The status line format of load_index. -/
def statusMsg (nPlatforms nGames : Nat) : String :=
  "已索引平台 " ++ toString nPlatforms ++ " 个，游戏条目 " ++ toString nGames ++ " 条"

/-- One entry of the recursive directory walk: its file-name component,
whether it is a regular file, and the outcome of opening and tokenising it
(error models an unreadable or malformed file). -/
structure DirFile where
  file_name : String
  is_file : Bool
  events : Except Unit (List Event)

/-- The per-file parse: an open or stream error fails the whole file. -/
def parse_file (f : DirFile) : Except Unit (List GameEntry) :=
  match f.events with
  | .ok evs => .ok (parse_games_from_file f.file_name evs)
  | .error e => .error e

/-- The file discovery filter of load_index: regular files whose extension
is exactly the lowercase string xml. -/
def xmlFilter (entries : List DirFile) : List DirFile :=
  entries.filter (fun f => f.is_file && (rust_extension f.file_name == some "xml"))

/-- The aggregation part of load_index: early empty result when no xml
file was discovered, otherwise parse every file, drop failures, flatten,
and derive the three facet lists and the status line. -/
def buildOutput (entries : List DirFile) :
    List GameEntry × List String × List String × List String × String :=
  let files := xmlFilter entries
  if files.isEmpty then ([], [], [], [], "未找到 XML 文件")
  else
    let games := (files.filterMap (fun f => (parse_file f).toOption)).flatten
    (games, platformFacet games, regionFacet games, languageFacet games,
      statusMsg (platformFacet games).length games.length)

/-- load_index of src/main.rs: fails exactly when the root directory does
not exist, otherwise aggregates. -/
def load_index (dir_exists : Bool) (entries : List DirFile) :
    Except String (List GameEntry × List String × List String × List String × String) :=
  if !dir_exists then .error "xmldb 目录不存在"
  else .ok (buildOutput entries)

/-- Claim C4: the index build fails if and only if the root directory does
not exist; whenever the directory exists the build succeeds, and when
there is no xml file, or every discovered xml file fails to open or parse,
the result is an empty entry list together with one of the two
informational status strings. -/
theorem C4_build_error_iff_no_dir (dir_exists : Bool) (entries : List DirFile) :
    ((∃ e, load_index dir_exists entries = .error e) ↔ dir_exists = false) ∧
    (dir_exists = true → load_index dir_exists entries = .ok (buildOutput entries)) ∧
    (dir_exists = true → (∀ f ∈ xmlFilter entries, (parse_file f).toOption = none) →
       ∃ st, load_index dir_exists entries = .ok ([], [], [], [], st) ∧
         (st = "未找到 XML 文件" ∨ st = statusMsg 0 0)) := by
  cases dir_exists with
  | false =>
    refine ⟨⟨fun _ => rfl, fun _ => ⟨"xmldb 目录不存在", rfl⟩⟩, ?_, ?_⟩
    · intro h
      exact absurd h (by simp)
    · intro h
      exact absurd h (by simp)
  | true =>
    have hload : load_index true entries = .ok (buildOutput entries) := rfl
    refine ⟨⟨?_, fun h => absurd h (by simp)⟩, fun _ => hload, fun _ hfail => ?_⟩
    · rintro ⟨e, he⟩
      rw [hload] at he
      exact absurd he (by simp)
    · by_cases hemp : (xmlFilter entries).isEmpty = true
      · refine ⟨"未找到 XML 文件", ?_, .inl rfl⟩
        rw [hload]
        unfold buildOutput
        rw [if_pos hemp]
      · have hnil : (xmlFilter entries).filterMap (fun f => (parse_file f).toOption) = [] :=
          List.filterMap_eq_nil_iff.mpr hfail
        refine ⟨statusMsg 0 0, ?_, .inr rfl⟩
        rw [hload]
        unfold buildOutput
        rw [if_neg hemp, hnil]
        rfl

/-- Witness input for claim C4: one xml file that fails to parse. -/
def c4File : DirFile :=
  { file_name := "NES.xml", is_file := true, events := .error () }

/-- Witness for claim C4: with an existing directory holding a single xml
file whose parse fails, the build still succeeds, with an empty entry list
and an informational status string. -/
theorem C4_build_error_iff_no_dir_witness :
    ∃ st, load_index true [c4File] = .ok ([], [], [], [], st) ∧
      (st = "未找到 XML 文件" ∨ st = statusMsg 0 0) :=
  (C4_build_error_iff_no_dir true [c4File]).2.2 rfl (by decide)

theorem platformFacet_spec (games : List GameEntry) :
    List.Pairwise (fun x y => strLe x y = true) (platformFacet games) ∧
    (platformFacet games).Nodup ∧
    ∀ x, x ∈ platformFacet games ↔ ∃ g ∈ games, g.platform = x := by
  refine ⟨sorted_dedupAdj _ (sorted_sortS _), nodup_dedupAdj _ (sorted_sortS _), fun x => ?_⟩
  unfold platformFacet
  rw [mem_dedupAdj, mem_sortS, List.mem_map]

theorem regionFacet_spec (games : List GameEntry) :
    List.Pairwise (fun x y => strLe x y = true) (regionFacet games) ∧
    (regionFacet games).Nodup ∧
    ∀ x, x ∈ regionFacet games ↔
      x ≠ "" ∧ ∃ g ∈ games, ∃ r, g.region = some r ∧ trimS r = x := by
  refine ⟨sorted_dedupAdj _ (sorted_sortS _), nodup_dedupAdj _ (sorted_sortS _), fun x => ?_⟩
  unfold regionFacet
  rw [mem_dedupAdj, mem_sortS, List.mem_filter]
  simp only [List.mem_filterMap, Option.map_eq_some']
  constructor
  · rintro ⟨⟨g, hg, r, hr, hx⟩, hne⟩
    refine ⟨?_, g, hg, r, hr, hx⟩
    simpa using hne
  · rintro ⟨hne, g, hg, r, hr, hx⟩
    exact ⟨⟨g, hg, r, hr, hx⟩, by simpa using hne⟩

theorem languageFacet_spec (games : List GameEntry) :
    List.Pairwise (fun x y => strLe x y = true) (languageFacet games) ∧
    (languageFacet games).Nodup ∧
    ∀ x, x ∈ languageFacet games ↔
      x ≠ "" ∧ ∃ g ∈ games, ∃ lv, g.languages = some lv ∧
        ∃ tok ∈ splitComma lv, trimS tok = x := by
  refine ⟨sorted_dedupAdj _ (sorted_sortS _), nodup_dedupAdj _ (sorted_sortS _), fun x => ?_⟩
  unfold languageFacet
  rw [mem_dedupAdj, mem_sortS, List.mem_filter]
  simp only [List.mem_map, List.mem_flatMap, List.mem_filterMap]
  constructor
  · rintro ⟨⟨tok, ⟨lv, ⟨g, hg, hlv⟩, htok⟩, hx⟩, hne⟩
    refine ⟨by simpa using hne, g, hg, lv, hlv, tok, htok, hx⟩
  · rintro ⟨hne, g, hg, lv, hlv, tok, htok, hx⟩
    exact ⟨⟨tok, ⟨lv, ⟨g, hg, hlv⟩, htok⟩, hx⟩, by simpa using hne⟩

/-- Claim C5, amended: the regions and languages facet lists are sorted in
byte/codepoint order, duplicate-free, and contain exactly the nonempty
trimmed projections (comma-split for languages) of the entries; the
platforms facet list is sorted and duplicate-free and contains exactly the
platform of every entry, but is neither trimmed nor filtered of empty
strings. -/
theorem C5_amended (dir_exists : Bool) (entries : List DirFile)
    (games : List GameEntry) (ps rs ls : List String) (st : String)
    (h : load_index dir_exists entries = .ok (games, ps, rs, ls, st)) :
    (ps = platformFacet games ∧ List.Pairwise (fun x y => strLe x y = true) ps ∧
       ps.Nodup ∧ ∀ x, x ∈ ps ↔ ∃ g ∈ games, g.platform = x) ∧
    (rs = regionFacet games ∧ List.Pairwise (fun x y => strLe x y = true) rs ∧
       rs.Nodup ∧ ∀ x, x ∈ rs ↔ x ≠ "" ∧ ∃ g ∈ games, ∃ r, g.region = some r ∧ trimS r = x) ∧
    (ls = languageFacet games ∧ List.Pairwise (fun x y => strLe x y = true) ls ∧
       ls.Nodup ∧ ∀ x, x ∈ ls ↔ x ≠ "" ∧ ∃ g ∈ games, ∃ lv, g.languages = some lv ∧
         ∃ tok ∈ splitComma lv, trimS tok = x) := by
  cases dir_exists with
  | false => exact absurd h (by simp [load_index])
  | true =>
    have htup : buildOutput entries = (games, ps, rs, ls, st) := by
      have h' := h
      simp only [load_index, Bool.not_true, Bool.false_eq_true, if_false,
        Except.ok.injEq] at h'
      exact h'
    have hfacets : ps = platformFacet games ∧ rs = regionFacet games ∧
        ls = languageFacet games := by
      by_cases hemp : (xmlFilter entries).isEmpty = true
      · rw [buildOutput, if_pos hemp] at htup
        simp only [Prod.mk.injEq] at htup
        obtain ⟨h1, h2, h3, h4, -⟩ := htup
        subst h1
        exact ⟨h2.symm, h3.symm, h4.symm⟩
      · simp only [Bool.not_eq_true] at hemp
        simp only [buildOutput, hemp, Bool.false_eq_true, if_false, Prod.mk.injEq] at htup
        obtain ⟨h1, h2, h3, h4, -⟩ := htup
        subst h1
        exact ⟨h2.symm, h3.symm, h4.symm⟩
    obtain ⟨hps, hrs, hls⟩ := hfacets
    subst hps
    subst hrs
    subst hls
    obtain ⟨p1, p2, p3⟩ := platformFacet_spec games
    obtain ⟨r1, r2, r3⟩ := regionFacet_spec games
    obtain ⟨l1, l2, l3⟩ := languageFacet_spec games
    exact ⟨⟨rfl, p1, p2, p3⟩, ⟨rfl, r1, r2, r3⟩, ⟨rfl, l1, l2, l3⟩⟩

/-- Witness input for claim C5: one file whose single game carries the
languages value of the specification example. -/
def c5wFile : DirFile :=
  { file_name := "NES.xml"
    is_file := true
    events := .ok [.start "datafile" [],
      .start "game" [("name", "X"), ("languages", "en, fr,en")],
      .endE "game", .endE "datafile"] }

/-- The entry list the C5 witness file parses to. -/
def c5wGames : List GameEntry :=
  [{ platform := "NES"
     name := "X"
     archive_name := none
     region := none
     languages := some "en, fr,en"
     file_path := "NES.xml"
     game_idx := 0 }]

/-- Witness for claim C5 amended, at the specification example: languages
value en, fr,en yields the facet list of en and fr, sorted, deduplicated,
and en is traced back to a comma-split trimmed token. -/
theorem C5_amended_witness :
    List.Pairwise (fun x y => strLe x y = true) (["en", "fr"] : List String) ∧
    (("en" : String) ∈ (["en", "fr"] : List String) ↔ ("en" : String) ≠ "" ∧
      ∃ g ∈ c5wGames, ∃ lv, g.languages = some lv ∧
        ∃ tok ∈ splitComma lv, trimS tok = "en") := by
  have h := C5_amended true [c5wFile] c5wGames ["NES"] [] ["en", "fr"] (statusMsg 1 1)
    (by rfl)
  exact ⟨h.2.2.2.1, h.2.2.2.2.2 "en"⟩

/-- Counterexample input for claim C5: a file whose name starts with the
space-open-paren pattern, so that the inferred platform is the empty
string. -/
def c5File : DirFile :=
  { file_name := " (a.xml"
    is_file := true
    events := .ok [.start "datafile" [], .start "game" [("name", "G")],
      .endE "game", .endE "datafile"] }

/-- Counterexample to claim C5 as stated: the platforms facet produced by
the index build can contain the empty string (and untrimmed values), since
the code neither trims nor filters the platform projection; here the build
succeeds and its platforms facet list is exactly the one-element list
holding the empty string. -/
theorem C5_counterexample :
    load_index true [c5File] = .ok
      ([{ platform := ""
          name := "G"
          archive_name := none
          region := none
          languages := none
          file_path := " (a.xml"
          game_idx := 0 }], [""], [], [], statusMsg 1 1) := by
  rfl

/-! A structured document model, following the file schema of the
specification: a root element whose children are game elements; a game
element carries attributes and contains archive elements, details
elements, other elements and loose text, CDATA or comments; element
content below a child is leaf content.  Its event stream is computed by
the functions below, and both the parser and the extractor are then
related to the structure. -/

/-- Leaf content: character data, CDATA or a comment. -/
inductive Leaf where
  | text (s : String)
  | cdata (s : String)
  | comment (s : String)
deriving DecidableEq, Repr

/-- The event of a leaf. -/
def leafEvent : Leaf → Event
  | .text s => .text s
  | .cdata s => .cdata s
  | .comment s => .comment s

/-- A child of a game element: archive, details or another element, each
self-closing or in open/close form with leaf content, or a loose leaf. -/
inductive Child where
  | archiveSC (attrs : List (String × String))
  | archiveOC (attrs : List (String × String)) (inner : List Leaf)
  | detailsSC (attrs : List (String × String))
  | detailsOC (attrs : List (String × String)) (inner : List Leaf)
  | otherSC (name : String) (attrs : List (String × String))
  | otherOC (name : String) (attrs : List (String × String)) (inner : List Leaf)
  | leaf (l : Leaf)
deriving DecidableEq, Repr

/-- The event stream of a child. -/
def childEvents : Child → List Event
  | .archiveSC a => [.empty "archive" a]
  | .archiveOC a inner => .start "archive" a :: (inner.map leafEvent ++ [.endE "archive"])
  | .detailsSC a => [.empty "details" a]
  | .detailsOC a inner => .start "details" a :: (inner.map leafEvent ++ [.endE "details"])
  | .otherSC n a => [.empty n a]
  | .otherOC n a inner => .start n a :: (inner.map leafEvent ++ [.endE n])
  | .leaf l => [leafEvent l]

/-- Well-formedness of a child: another element does not reuse one of the
three recognised tag names. -/
def childWF : Child → Bool
  | .otherSC n _ => !(n == "game") && !(n == "archive") && !(n == "details")
  | .otherOC n _ _ => !(n == "game") && !(n == "archive") && !(n == "details")
  | _ => true

/-- A game element: its attributes, whether it is self-closing, and its
children (ignored when self-closing). -/
structure GameElem where
  attrs : List (String × String)
  selfClosed : Bool
  children : List Child
deriving DecidableEq, Repr

/-- The event stream of a game element. -/
def gameEvents (g : GameElem) : List Event :=
  if g.selfClosed then [.empty "game" g.attrs]
  else .start "game" g.attrs :: (g.children.flatMap childEvents ++ [.endE "game"])

/-- The event stream of a whole document: a root element whose children
are the game elements. -/
def docEvents (root : String) (gs : List GameElem) : List Event :=
  .start root [] :: (gs.flatMap gameEvents ++ [.endE root])

/-- The last value of the given attribute key in an attribute list (the
attribute loops assign in order, so a later duplicate wins). -/
def lastAttr (key : String) (attrs : List (String × String)) : Option String :=
  attrs.foldl (fun acc kv => if kv.1 = key then some kv.2 else acc) none

/-- The region attribute of a child, when it is an archive element. -/
def childArchRegion : Child → Option String
  | .archiveSC a => lastAttr "region" a
  | .archiveOC a _ => lastAttr "region" a
  | _ => none

/-- The languages attribute of a child, when it is an archive element. -/
def childArchLangs : Child → Option String
  | .archiveSC a => lastAttr "languages" a
  | .archiveOC a _ => lastAttr "languages" a
  | _ => none

/-- The name attribute of a child, when it is an archive element. -/
def childArchName : Child → Option String
  | .archiveSC a => lastAttr "name" a
  | .archiveOC a _ => lastAttr "name" a
  | _ => none

/-- The region attribute of a child, when it is a details element. -/
def childDetailsRegion : Child → Option String
  | .detailsSC a => lastAttr "region" a
  | .detailsOC a _ => lastAttr "region" a
  | _ => none

/-- The archive-level region of a game element: the region attribute of
the last archive child that carries one. -/
def specArchRegion (cs : List Child) : Option String :=
  cs.foldr (fun c acc => optOr acc (childArchRegion c)) none

/-- The archive-level languages of a game element: the languages attribute
of the last archive child that carries one. -/
def specArchLangs (cs : List Child) : Option String :=
  cs.foldr (fun c acc => optOr acc (childArchLangs c)) none

/-- The archive-level name of a game element: the name attribute of the
last archive child that carries one. -/
def specArchName (cs : List Child) : Option String :=
  cs.foldr (fun c acc => optOr acc (childArchName c)) none

/-- The details-level region of a game element: the region attribute of
the last details child that carries one. -/
def specDetailsRegion (cs : List Child) : Option String :=
  cs.foldr (fun c acc => optOr acc (childDetailsRegion c)) none

/-- The entry the specification predicts for the game element at index i:
region resolved archive-level first, then the game attribute, then the
details-level; languages archive-level first, then the game attribute;
archive name from the archive level. -/
def mkEntrySpec (platform fp : String) (i : Nat) (g : GameElem) : GameEntry :=
  { platform := platform
    name := (lastAttr "name" g.attrs).getD ""
    archive_name := specArchName g.children
    region := optOr (specArchRegion g.children)
      (optOr (lastAttr "region" g.attrs) (specDetailsRegion g.children))
    languages := optOr (specArchLangs g.children) (lastAttr "languages" g.attrs)
    file_path := fp
    game_idx := i }

/-- The entries the specification predicts for a list of game elements,
with indices starting at k. -/
def specEntries (platform fp : String) (k : Nat) : List GameElem → List GameEntry
  | [] => []
  | g :: gs => mkEntrySpec platform fp k g :: specEntries platform fp (k + 1) gs

/-! Option and attribute-fold lemmas. -/

theorem optOr_none_right (a : Option String) : optOr a none = a := by
  cases a <;> rfl

theorem optOr_assoc (a b c : Option String) :
    optOr (optOr a b) c = optOr a (optOr b c) := by
  cases a <;> rfl

theorem optOr_optOr_some (a : Option String) (v : String) (b : Option String) :
    optOr (optOr a (some v)) b = optOr a (some v) := by
  cases a <;> rfl

theorem optOr_eq_none (a b : Option String) :
    optOr a b = none ↔ a = none ∧ b = none := by
  cases a <;> simp [optOr]

theorem lastAttr_acc (key : String) : ∀ (rest : List (String × String)) (acc : Option String),
    rest.foldl (fun acc kv => if kv.1 = key then some kv.2 else acc) acc =
      optOr (lastAttr key rest) acc := by
  intro rest
  induction rest with
  | nil => intro acc; rfl
  | cons kv rest ih =>
    intro acc
    have hcons : lastAttr key (kv :: rest) =
        optOr (lastAttr key rest) (if kv.1 = key then some kv.2 else none) := by
      unfold lastAttr
      rw [List.foldl_cons]
      exact ih _
    rw [List.foldl_cons, ih, hcons, optOr_assoc]
    by_cases hk : kv.1 = key
    · simp [hk, optOr]
    · simp [hk, optOr]

theorem lastAttr_cons (key : String) (kv : String × String) (rest : List (String × String)) :
    lastAttr key (kv :: rest) =
      optOr (lastAttr key rest) (if kv.1 = key then some kv.2 else none) := by
  unfold lastAttr
  rw [List.foldl_cons]
  exact lastAttr_acc key rest _

/-! Bridging the streaming parser state to the structural resolution. -/

theorem foldl_archiveAttr (a : List (String × String)) (s : PState) :
    a.foldl archiveAttr s = { s with
      current_archive_region := optOr (lastAttr "region" a) s.current_archive_region
      current_archive_languages := optOr (lastAttr "languages" a) s.current_archive_languages
      current_archive_name := optOr (lastAttr "name" a) s.current_archive_name } := by
  induction a generalizing s with
  | nil => rfl
  | cons kv rest ih =>
    rw [List.foldl_cons, ih]
    by_cases h1 : kv.1 = "region"
    · simp [archiveAttr, h1, lastAttr_cons, optOr_none_right, optOr_optOr_some]
    · by_cases h2 : kv.1 = "languages"
      · simp [archiveAttr, h1, h2, lastAttr_cons, optOr_none_right, optOr_optOr_some]
      · by_cases h3 : kv.1 = "name"
        · simp [archiveAttr, h1, h2, h3, lastAttr_cons, optOr_none_right, optOr_optOr_some]
        · simp [archiveAttr, h1, h2, h3, lastAttr_cons, optOr_none_right, optOr_optOr_some]

theorem foldl_gameAttr (a : List (String × String)) (s : PState) :
    a.foldl gameAttr s = { s with
      current_game_name := optOr (lastAttr "name" a) s.current_game_name
      current_game_region := optOr (lastAttr "region" a) s.current_game_region
      current_game_languages := optOr (lastAttr "languages" a) s.current_game_languages } := by
  induction a generalizing s with
  | nil => rfl
  | cons kv rest ih =>
    rw [List.foldl_cons, ih]
    by_cases h1 : kv.1 = "name"
    · simp [gameAttr, h1, lastAttr_cons, optOr_none_right, optOr_optOr_some]
    · by_cases h2 : kv.1 = "region"
      · simp [gameAttr, h1, h2, lastAttr_cons, optOr_none_right, optOr_optOr_some]
      · by_cases h3 : kv.1 = "languages"
        · simp [gameAttr, h1, h2, h3, lastAttr_cons, optOr_none_right, optOr_optOr_some]
        · simp [gameAttr, h1, h2, h3, lastAttr_cons, optOr_none_right, optOr_optOr_some]

theorem foldl_detailsAttr (a : List (String × String)) (s : PState) :
    a.foldl detailsAttr s = { s with
      current_details_region := optOr (lastAttr "region" a) s.current_details_region } := by
  induction a generalizing s with
  | nil => rfl
  | cons kv rest ih =>
    rw [List.foldl_cons, ih]
    by_cases h1 : kv.1 = "region"
    · simp [detailsAttr, h1, lastAttr_cons, optOr_none_right, optOr_optOr_some]
    · simp [detailsAttr, h1, lastAttr_cons, optOr_none_right, optOr_optOr_some]

/-- The four holders the parser maintains below the game level. -/
structure Hold where
  ar : Option String
  al : Option String
  an : Option String
  dr : Option String
deriving DecidableEq, Repr

/-- Effect of one archive element on the holders. -/
def archUpd (h : Hold) (a : List (String × String)) : Hold :=
  { ar := optOr (lastAttr "region" a) h.ar
    al := optOr (lastAttr "languages" a) h.al
    an := optOr (lastAttr "name" a) h.an
    dr := h.dr }

/-- Effect of one details element on the holders, guarded exactly as the
parser guards its details capture. -/
def detUpd (gr : Option String) (h : Hold) (a : List (String × String)) : Hold :=
  if h.ar = none ∧ gr = none then { h with dr := optOr (lastAttr "region" a) h.dr } else h

/-- Effect of one child on the holders. -/
def holdChild (gr : Option String) (h : Hold) : Child → Hold
  | .archiveSC a => archUpd h a
  | .archiveOC a _ => archUpd h a
  | .detailsSC a => detUpd gr h a
  | .detailsOC a _ => detUpd gr h a
  | .otherSC _ _ => h
  | .otherOC _ _ _ => h
  | .leaf _ => h

/-- Effect of a child list on the holders. -/
def holdChildren (gr : Option String) (h : Hold) (cs : List Child) : Hold :=
  cs.foldl (holdChild gr) h

/-- The holder components of a parser state. -/
def getHold (s : PState) : Hold :=
  ⟨s.current_archive_region, s.current_archive_languages, s.current_archive_name,
   s.current_details_region⟩

/-- Replacing the holder components of a parser state. -/
def setHold (s : PState) (h : Hold) : PState :=
  { s with
    current_archive_region := h.ar
    current_archive_languages := h.al
    current_archive_name := h.an
    current_details_region := h.dr }

theorem foldl_step_leaves (platform fp : String) : ∀ (inner : List Leaf) (s : PState),
    (inner.map leafEvent).foldl (step platform fp) s = s
  | [], _ => rfl
  | l :: inner, s => by
    rw [List.map_cons, List.foldl_cons]
    have hl : step platform fp s (leafEvent l) = s := by cases l <;> rfl
    rw [hl]
    exact foldl_step_leaves platform fp inner s

theorem step_child (platform fp : String) (s : PState) (c : Child)
    (hin : s.in_game = true) (hwf : childWF c = true) :
    (childEvents c).foldl (step platform fp) s =
      setHold s (holdChild s.current_game_region (getHold s) c) := by
  cases c with
  | archiveSC a =>
    simp only [childEvents, List.foldl_cons, List.foldl_nil, step, hin]
    simp [stepArchive, foldl_archiveAttr, setHold, holdChild, archUpd, getHold]
  | archiveOC a inner =>
    simp only [childEvents, List.foldl_cons, List.foldl_append, List.foldl_nil]
    rw [show step platform fp s (.start "archive" a) = stepArchive s a by simp [step, hin]]
    rw [stepArchive, foldl_archiveAttr]
    rw [foldl_step_leaves]
    rw [step_end_other platform fp _ "archive" (by decide)]
    simp [setHold, holdChild, archUpd, getHold]
  | detailsSC a =>
    simp only [childEvents, List.foldl_cons, List.foldl_nil]
    rw [show step platform fp s (.empty "details" a) = stepDetails s a by simp [step, hin]]
    rw [stepDetails]
    by_cases hc : s.current_archive_region = none ∧ s.current_game_region = none
    · rw [if_pos hc, foldl_detailsAttr]
      simp [setHold, holdChild, detUpd, getHold, hc]
    · rw [if_neg hc]
      simp [setHold, holdChild, detUpd, getHold, hc]
  | detailsOC a inner =>
    simp only [childEvents, List.foldl_cons, List.foldl_append, List.foldl_nil]
    rw [show step platform fp s (.start "details" a) = stepDetails s a by simp [step, hin]]
    rw [stepDetails]
    by_cases hc : s.current_archive_region = none ∧ s.current_game_region = none
    · rw [if_pos hc, foldl_detailsAttr, foldl_step_leaves,
        step_end_other platform fp _ "details" (by decide)]
      simp [setHold, holdChild, detUpd, getHold, hc]
    · rw [if_neg hc, foldl_step_leaves, step_end_other platform fp _ "details" (by decide)]
      simp [setHold, holdChild, detUpd, getHold, hc]
  | otherSC n a =>
    simp only [childWF, Bool.and_eq_true, Bool.not_eq_true', beq_eq_false_iff_ne] at hwf
    obtain ⟨⟨hg, ha⟩, hd⟩ := hwf
    simp only [childEvents, List.foldl_cons, List.foldl_nil]
    rw [show step platform fp s (.empty n a) = s by simp [step, ha, hd]]
    rfl
  | otherOC n a inner =>
    simp only [childWF, Bool.and_eq_true, Bool.not_eq_true', beq_eq_false_iff_ne] at hwf
    obtain ⟨⟨hg, ha⟩, hd⟩ := hwf
    simp only [childEvents, List.foldl_cons, List.foldl_append, List.foldl_nil]
    rw [show step platform fp s (.start n a) = s by simp [step, hg, ha, hd]]
    rw [foldl_step_leaves, step_end_other platform fp _ n hg]
    rfl
  | leaf l =>
    simp only [childEvents, List.foldl_cons, List.foldl_nil]
    have hl : step platform fp s (leafEvent l) = s := by cases l <;> rfl
    rw [hl]
    rfl

theorem setHold_setHold (s : PState) (h h' : Hold) :
    setHold (setHold s h) h' = setHold s h' := rfl

theorem step_children (platform fp : String) : ∀ (cs : List Child) (s : PState),
    s.in_game = true → (∀ c ∈ cs, childWF c = true) →
    (cs.flatMap childEvents).foldl (step platform fp) s =
      setHold s (holdChildren s.current_game_region (getHold s) cs)
  | [], s, _, _ => rfl
  | c :: cs, s, hin, hwf => by
    rw [List.flatMap_cons, List.foldl_append]
    rw [step_child platform fp s c hin (hwf c (List.mem_cons_self c cs))]
    rw [step_children platform fp cs (setHold s (holdChild s.current_game_region (getHold s) c))
      hin (fun c' hc' => hwf c' (List.mem_cons_of_mem c hc'))]
    rw [setHold_setHold]
    rfl

/-! Relating the holder evolution to the structural resolution. -/

theorem holdChild_ar (gr : Option String) (h : Hold) (c : Child) :
    (holdChild gr h c).ar = optOr (childArchRegion c) h.ar := by
  cases c with
  | detailsSC a =>
    simp only [holdChild, detUpd, childArchRegion]
    split <;> rfl
  | detailsOC a inner =>
    simp only [holdChild, detUpd, childArchRegion]
    split <;> rfl
  | _ => rfl

theorem holdChild_al (gr : Option String) (h : Hold) (c : Child) :
    (holdChild gr h c).al = optOr (childArchLangs c) h.al := by
  cases c with
  | detailsSC a =>
    simp only [holdChild, detUpd, childArchLangs]
    split <;> rfl
  | detailsOC a inner =>
    simp only [holdChild, detUpd, childArchLangs]
    split <;> rfl
  | _ => rfl

theorem holdChild_an (gr : Option String) (h : Hold) (c : Child) :
    (holdChild gr h c).an = optOr (childArchName c) h.an := by
  cases c with
  | detailsSC a =>
    simp only [holdChild, detUpd, childArchName]
    split <;> rfl
  | detailsOC a inner =>
    simp only [holdChild, detUpd, childArchName]
    split <;> rfl
  | _ => rfl

theorem holdChildren_ar (gr : Option String) : ∀ (cs : List Child) (h : Hold),
    (holdChildren gr h cs).ar = optOr (specArchRegion cs) h.ar
  | [], h => rfl
  | c :: cs, h => by
    rw [show holdChildren gr h (c :: cs) = holdChildren gr (holdChild gr h c) cs from rfl]
    rw [holdChildren_ar gr cs _, holdChild_ar]
    rw [show specArchRegion (c :: cs) = optOr (specArchRegion cs) (childArchRegion c) from rfl]
    rw [optOr_assoc]

theorem holdChildren_al (gr : Option String) : ∀ (cs : List Child) (h : Hold),
    (holdChildren gr h cs).al = optOr (specArchLangs cs) h.al
  | [], h => rfl
  | c :: cs, h => by
    rw [show holdChildren gr h (c :: cs) = holdChildren gr (holdChild gr h c) cs from rfl]
    rw [holdChildren_al gr cs _, holdChild_al]
    rw [show specArchLangs (c :: cs) = optOr (specArchLangs cs) (childArchLangs c) from rfl]
    rw [optOr_assoc]

theorem holdChildren_an (gr : Option String) : ∀ (cs : List Child) (h : Hold),
    (holdChildren gr h cs).an = optOr (specArchName cs) h.an
  | [], h => rfl
  | c :: cs, h => by
    rw [show holdChildren gr h (c :: cs) = holdChildren gr (holdChild gr h c) cs from rfl]
    rw [holdChildren_an gr cs _, holdChild_an]
    rw [show specArchName (c :: cs) = optOr (specArchName cs) (childArchName c) from rfl]
    rw [optOr_assoc]

theorem holdChildren_dr : ∀ (cs : List Child) (h : Hold),
    h.ar = none → specArchRegion cs = none →
    (holdChildren none h cs).dr = optOr (specDetailsRegion cs) h.dr
  | [], h, _, _ => rfl
  | c :: cs, h, har, hsar => by
    rw [show specArchRegion (c :: cs) = optOr (specArchRegion cs) (childArchRegion c)
      from rfl] at hsar
    obtain ⟨hsar', hcar⟩ := (optOr_eq_none _ _).mp hsar
    rw [show holdChildren none h (c :: cs) = holdChildren none (holdChild none h c) cs from rfl]
    have har' : (holdChild none h c).ar = none := by
      rw [holdChild_ar, hcar, har]
      rfl
    rw [holdChildren_dr cs _ har' hsar']
    rw [show specDetailsRegion (c :: cs) = optOr (specDetailsRegion cs) (childDetailsRegion c)
      from rfl]
    rw [optOr_assoc]
    congr 1
    cases c with
    | detailsSC a =>
      simp only [holdChild, detUpd, har, childDetailsRegion]
      simp
    | detailsOC a inner =>
      simp only [holdChild, detUpd, har, childDetailsRegion]
      simp
    | archiveSC a =>
      simp only [holdChild, archUpd, childDetailsRegion, optOr]
    | archiveOC a inner =>
      simp only [holdChild, archUpd, childDetailsRegion, optOr]
    | otherSC n a => rfl
    | otherOC n a inner => rfl
    | leaf l => rfl

/-- The parser state between two top-level game elements: not inside a
game, all holders clear, counter k, accumulated results res. -/
def cleanState (k : Nat) (res : List GameEntry) : PState :=
  { in_game := false
    current_game_name := none
    current_archive_region := none
    current_archive_languages := none
    current_archive_name := none
    current_game_region := none
    current_game_languages := none
    current_details_region := none
    game_idx_counter := k
    results := res }

/-- The parser state right after the start tag of a game element read from
a clean state. -/
def midState (k : Nat) (res : List GameEntry) (g : GameElem) : PState :=
  { in_game := true
    current_game_name := lastAttr "name" g.attrs
    current_archive_region := none
    current_archive_languages := none
    current_archive_name := none
    current_game_region := lastAttr "region" g.attrs
    current_game_languages := lastAttr "languages" g.attrs
    current_details_region := none
    game_idx_counter := k
    results := res }

theorem step_start_not_game (platform fp : String) (s : PState) (n : String)
    (a : List (String × String)) (hn : n ≠ "game") (hin : s.in_game = false) :
    step platform fp s (.start n a) = s := by
  simp [step, hn, hin]

theorem step_end_emit (platform fp : String) (s : PState) (nm : String)
    (h : s.current_game_name = some nm) :
    step platform fp s (.endE "game") =
      { in_game := false
        current_game_name := none
        current_archive_region := none
        current_archive_languages := none
        current_archive_name := none
        current_game_region := none
        current_game_languages := none
        current_details_region := none
        game_idx_counter := s.game_idx_counter + 1
        results := s.results ++
          [{ platform := platform
             name := nm
             archive_name := s.current_archive_name
             region := optOr s.current_archive_region
               (optOr s.current_game_region s.current_details_region)
             languages := optOr s.current_archive_languages s.current_game_languages
             file_path := fp
             game_idx := s.game_idx_counter }] } := by
  simp [step, h]

theorem foldl_step_game (platform fp : String) (k : Nat) (res : List GameEntry) (g : GameElem)
    (hwf : ∀ c ∈ g.children, childWF c = true)
    (hname : (lastAttr "name" g.attrs).isSome = true)
    (hsc : g.selfClosed = false) :
    (gameEvents g).foldl (step platform fp) (cleanState k res) =
      cleanState (k + 1) (res ++ [mkEntrySpec platform fp k g]) := by
  obtain ⟨nm, hnm⟩ := Option.isSome_iff_exists.mp hname
  rw [gameEvents, if_neg (show ¬(g.selfClosed = true) by simp [hsc])]
  rw [List.foldl_cons]
  have hmid : step platform fp (cleanState k res) (.start "game" g.attrs) = midState k res g := by
    simp [step, foldl_gameAttr, cleanState, midState, optOr_none_right]
  rw [hmid, List.foldl_append]
  rw [step_children platform fp g.children (midState k res g) rfl hwf]
  rw [List.foldl_cons, List.foldl_nil]
  rw [step_end_emit platform fp _ nm hnm]
  have hhold := holdChildren_ar (lastAttr "region" g.attrs) g.children ⟨none, none, none, none⟩
  have hholdl := holdChildren_al (lastAttr "region" g.attrs) g.children ⟨none, none, none, none⟩
  have hholdn := holdChildren_an (lastAttr "region" g.attrs) g.children ⟨none, none, none, none⟩
  rw [optOr_none_right] at hhold hholdl hholdn
  rw [cleanState]
  simp only [setHold, midState, getHold]
  refine congrArg (fun r => PState.mk false none none none none none none none (k + 1) r) ?_
  refine congrArg (fun e => res ++ [e]) ?_
  rw [mkEntrySpec]
  rw [hnm]
  simp only [Option.getD_some, GameEntry.mk.injEq, true_and, and_true]
  refine ⟨hholdn, ?_, by rw [hholdl]⟩
  rw [hhold]
  cases hsar : specArchRegion g.children with
  | some v => rfl
  | none =>
    cases hgr : lastAttr "region" g.attrs with
    | some w => rfl
    | none =>
      have hdr := holdChildren_dr g.children ⟨none, none, none, none⟩ rfl hsar
      rw [optOr_none_right] at hdr
      rw [show optOr none (optOr none
        (holdChildren none ⟨none, none, none, none⟩ g.children).dr) =
        (holdChildren none ⟨none, none, none, none⟩ g.children).dr from rfl]
      rw [hdr]
      rfl

theorem foldl_step_games (platform fp : String) : ∀ (gs : List GameElem) (k : Nat)
    (res : List GameEntry),
    (∀ g ∈ gs, (∀ c ∈ g.children, childWF c = true) ∧
      (lastAttr "name" g.attrs).isSome = true ∧ g.selfClosed = false) →
    (gs.flatMap gameEvents).foldl (step platform fp) (cleanState k res) =
      cleanState (k + gs.length) (res ++ specEntries platform fp k gs)
  | [], k, res, _ => by simp [specEntries]
  | g :: gs, k, res, hall => by
    obtain ⟨hwf, hname, hsc⟩ := hall g (List.mem_cons_self g gs)
    rw [List.flatMap_cons, List.foldl_append]
    rw [foldl_step_game platform fp k res g hwf hname hsc]
    rw [foldl_step_games platform fp gs (k + 1) _
      (fun g' hg' => hall g' (List.mem_cons_of_mem g hg'))]
    rw [show specEntries platform fp k (g :: gs) =
      mkEntrySpec platform fp k g :: specEntries platform fp (k + 1) gs from rfl]
    have h1 : k + 1 + gs.length = k + (gs.length + 1) := by omega
    rw [h1, List.append_assoc]
    rfl

/-- The streaming parser on a whole document: with every game element
named, non-self-closing and well formed, the result is exactly the list of
structurally resolved entries, in document order, with indices 0, 1, and
so on. -/
theorem parse_docEvents (fname root : String) (gs : List GameElem)
    (hroot : root ≠ "game")
    (hall : ∀ g ∈ gs, (∀ c ∈ g.children, childWF c = true) ∧
      (lastAttr "name" g.attrs).isSome = true ∧ g.selfClosed = false) :
    parse_games_from_file fname (docEvents root gs) =
      specEntries ((infer_platform_from_filename fname).getD "Unknown") fname 0 gs := by
  unfold parse_games_from_file parseState docEvents
  rw [List.foldl_cons]
  rw [step_start_not_game _ fname initPState root [] hroot rfl]
  rw [show initPState = cleanState 0 [] from rfl]
  rw [List.foldl_append, foldl_step_games _ fname gs 0 [] hall]
  rw [List.foldl_cons, List.foldl_nil, step_end_other _ fname _ root hroot]
  simp [cleanState]

theorem specEntries_getElem (platform fp : String) : ∀ (gs : List GameElem) (k i : Nat),
    (specEntries platform fp k gs)[i]? =
      (gs[i]?).map (fun g => mkEntrySpec platform fp (k + i) g)
  | [], _, _ => by simp [specEntries]
  | g :: gs, k, 0 => by simp [specEntries]
  | g :: gs, k, i + 1 => by
    rw [show specEntries platform fp k (g :: gs) =
      mkEntrySpec platform fp k g :: specEntries platform fp (k + 1) gs from rfl]
    rw [List.getElem?_cons_succ, List.getElem?_cons_succ]
    rw [specEntries_getElem platform fp gs (k + 1) i]
    have : k + 1 + i = k + (i + 1) := by omega
    rw [this]

/-- Claim C1, amended: in a document whose game elements all carry a name
attribute (and are in open/close form with well-formed children), the
entry emitted for the i-th game element is exactly the structurally
resolved one: region is the archive-level region if one was captured (the
last archive child carrying one), else the game-level region attribute,
else the details-level region, else absent; languages is the
archive-level languages, else the game-level attribute, else absent; and
archive name is the archive-level name if one was captured, else absent.
The restriction to documents without nameless game elements is forced by
the counterexample: a nameless game leaks its game-level holders into the
entry of the next game element. -/
theorem C1_amended (fname root : String) (gs : List GameElem)
    (hroot : root ≠ "game")
    (hall : ∀ g ∈ gs, (∀ c ∈ g.children, childWF c = true) ∧
      (lastAttr "name" g.attrs).isSome = true ∧ g.selfClosed = false)
    (i : Nat) (g : GameElem) (hg : gs[i]? = some g) :
    (parse_games_from_file fname (docEvents root gs))[i]? =
      some (mkEntrySpec ((infer_platform_from_filename fname).getD "Unknown") fname i g) := by
  rw [parse_docEvents fname root gs hroot hall, specEntries_getElem, hg]
  simp

/-- The witness game for claim C1: the specification example of a game
with a game-level region and a details child, where the game level wins. -/
def c1wGame : GameElem :=
  { attrs := [("name", "X"), ("region", "EU")]
    selfClosed := false
    children := [.detailsSC [("region", "JP")]] }

/-- Witness for claim C1 amended, at the specification example: game-level
region EU wins over the details region JP when no archive is present. -/
theorem C1_amended_witness :
    (parse_games_from_file "NES.xml" (docEvents "datafile" [c1wGame]))[0]? =
      some (mkEntrySpec ((infer_platform_from_filename "NES.xml").getD "Unknown")
        "NES.xml" 0 c1wGame) :=
  C1_amended "NES.xml" "datafile" [c1wGame] (by decide) (by decide) 0 c1wGame (by decide)

/-- A nameless game element holding a region attribute. -/
def c1Nameless : GameElem :=
  { attrs := [("region", "EU")], selfClosed := false, children := [] }

/-- A named game element holding no region anywhere. -/
def c1Named : GameElem :=
  { attrs := [("name", "X")], selfClosed := false, children := [] }

/-- Counterexample to claim C1 as stated: the named game element X carries
no region at any of the three levels, so the claimed resolution is absent,
yet the parser emits its entry with region EU, leaked from the game-level
holder of the preceding nameless game element. -/
theorem C1_counterexample :
    (parse_games_from_file "f.xml" (docEvents "datafile" [c1Nameless, c1Named])).map
      (fun e => (e.name, e.region)) = [("X", some "EU")] ∧
    optOr (specArchRegion c1Named.children)
      (optOr (lastAttr "region" c1Named.attrs) (specDetailsRegion c1Named.children)) = none := by
  exact ⟨rfl, rfl⟩

/-- Claim C7, amended: in a fully named document, for a game element with
no archive-level region and no game-level region attribute, the emitted
entry's region is the region of the LAST details child carrying a region
attribute (the parser re-captures the details holder on every details
element while the guard holds), not the first. -/
theorem C7_amended (fname root : String) (gs : List GameElem)
    (hroot : root ≠ "game")
    (hall : ∀ g ∈ gs, (∀ c ∈ g.children, childWF c = true) ∧
      (lastAttr "name" g.attrs).isSome = true ∧ g.selfClosed = false)
    (i : Nat) (g : GameElem) (hg : gs[i]? = some g)
    (har : specArchRegion g.children = none)
    (hgr : lastAttr "region" g.attrs = none) :
    ∃ e, (parse_games_from_file fname (docEvents root gs))[i]? = some e ∧
      e.region = specDetailsRegion g.children := by
  rw [parse_docEvents fname root gs hroot hall, specEntries_getElem, hg]
  refine ⟨_, rfl, ?_⟩
  simp [mkEntrySpec, har, hgr, optOr]

/-- The game of the C7 counterexample and witness: two details children
with distinct regions and no other region source. -/
def c7Game : GameElem :=
  { attrs := [("name", "Y")]
    selfClosed := false
    children := [.detailsSC [("region", "JP")], .detailsSC [("region", "FR")]] }

/-- Witness for claim C7 amended, at the two-details game. -/
theorem C7_amended_witness :
    ∃ e, (parse_games_from_file "f.xml" (docEvents "datafile" [c7Game]))[0]? = some e ∧
      e.region = specDetailsRegion c7Game.children :=
  C7_amended "f.xml" "datafile" [c7Game] (by decide) (by decide) 0 c7Game (by decide)
    (by decide) (by decide)

/-- Counterexample to claim C7 as stated: with details regions JP then FR
and no region otherwise, the emitted entry's region is FR, the last
details region, while the claim predicts the first one, JP. -/
theorem C7_counterexample :
    (parse_games_from_file "f.xml" (docEvents "datafile" [c7Game])).map (fun e => e.region) =
      [some "FR"] ∧ (some "FR" : Option String) ≠ some "JP" := by
  exact ⟨rfl, by decide⟩

/-! The fragment extractor: extract_game_xml_by_index of src/xml.rs. -/

/-- The event loop of extract_game_xml_by_index: a running counter of game
start and self-closing tags seen while not capturing, a capturing flag, a
nesting depth, and the output buffer of events written so far.  Returning
the buffer models the break statements; reaching the end of the list
models Eof. -/
def extractLoop (target : Nat) : Nat → Bool → Int → List Event → List Event → List Event
  | _, _, _, out, [] => out
  | idx, capturing, depth, out, e :: rest =>
    match e with
    | .start n a =>
      if n = "game" then
        if idx = target then extractLoop target idx true 1 (out ++ [.start n a]) rest
        else extractLoop target (idx + 1) capturing depth out rest
      else if capturing then
        extractLoop target idx capturing (depth + 1) (out ++ [.start n a]) rest
      else extractLoop target idx capturing depth out rest
    | .empty n a =>
      if n = "game" then
        if idx = target then out ++ [.empty n a]
        else extractLoop target (idx + 1) capturing depth out rest
      else if capturing then extractLoop target idx capturing depth (out ++ [.empty n a]) rest
      else extractLoop target idx capturing depth out rest
    | .text s =>
      if capturing then extractLoop target idx capturing depth (out ++ [.text s]) rest
      else extractLoop target idx capturing depth out rest
    | .cdata s =>
      if capturing then extractLoop target idx capturing depth (out ++ [.cdata s]) rest
      else extractLoop target idx capturing depth out rest
    | .comment s =>
      if capturing then extractLoop target idx capturing depth (out ++ [.comment s]) rest
      else extractLoop target idx capturing depth out rest
    | .endE n =>
      if capturing then
        if depth - 1 = 0 then out ++ [.endE n]
        else extractLoop target idx capturing (depth - 1) (out ++ [.endE n]) rest
      else extractLoop target idx capturing depth out rest

/-- Serialization of an attribute list by the writer. -/
def serializeAttrs : List (String × String) → String
  | [] => ""
  | kv :: rest => " " ++ kv.1 ++ "=\"" ++ kv.2 ++ "\"" ++ serializeAttrs rest

/-- Serialization of one event by the writer. -/
def serializeEvent : Event → String
  | .start n a => "<" ++ n ++ serializeAttrs a ++ ">"
  | .empty n a => "<" ++ n ++ serializeAttrs a ++ "/>"
  | .text s => s
  | .cdata s => "<![CDATA[" ++ s ++ "]]>"
  | .comment s => "<!--" ++ s ++ "-->"
  | .endE n => "</" ++ n ++ ">"

/-- Serialization of the written event buffer. -/
def serializeEvents (es : List Event) : String :=
  String.join (es.map serializeEvent)

/-- extract_game_xml_by_index of src/xml.rs, on an already-tokenised event
stream. -/
def extract_game_xml_by_index (events : List Event) (target_idx : Nat) : String :=
  serializeEvents (extractLoop target_idx 0 false 0 [] events)

/-- Events that are not game start or game self-closing tags: while not
capturing, the extractor ignores them completely. -/
def notGameEvent : Event → Bool
  | .start n _ => !(n == "game")
  | .empty n _ => !(n == "game")
  | _ => true

theorem extractLoop_skip_inert (target idx : Nat) (d : Int) (out : List Event) :
    ∀ (evs rest : List Event), (∀ e ∈ evs, notGameEvent e = true) →
    extractLoop target idx false d out (evs ++ rest) =
      extractLoop target idx false d out rest
  | [], _, _ => rfl
  | e :: evs, rest, hall => by
    have hrec := extractLoop_skip_inert target idx d out evs rest
      (fun e' he' => hall e' (List.mem_cons_of_mem e he'))
    have he := hall e (List.mem_cons_self e evs)
    rw [List.cons_append]
    cases e with
    | start n a =>
      simp only [notGameEvent, Bool.not_eq_true', beq_eq_false_iff_ne] at he
      rw [show extractLoop target idx false d out (Event.start n a :: (evs ++ rest)) =
        extractLoop target idx false d out (evs ++ rest) from by simp [extractLoop, he]]
      exact hrec
    | empty n a =>
      simp only [notGameEvent, Bool.not_eq_true', beq_eq_false_iff_ne] at he
      rw [show extractLoop target idx false d out (Event.empty n a :: (evs ++ rest)) =
        extractLoop target idx false d out (evs ++ rest) from by simp [extractLoop, he]]
      exact hrec
    | text s =>
      rw [show extractLoop target idx false d out (Event.text s :: (evs ++ rest)) =
        extractLoop target idx false d out (evs ++ rest) from by simp [extractLoop]]
      exact hrec
    | cdata s =>
      rw [show extractLoop target idx false d out (Event.cdata s :: (evs ++ rest)) =
        extractLoop target idx false d out (evs ++ rest) from by simp [extractLoop]]
      exact hrec
    | comment s =>
      rw [show extractLoop target idx false d out (Event.comment s :: (evs ++ rest)) =
        extractLoop target idx false d out (evs ++ rest) from by simp [extractLoop]]
      exact hrec
    | endE n =>
      rw [show extractLoop target idx false d out (Event.endE n :: (evs ++ rest)) =
        extractLoop target idx false d out (evs ++ rest) from by simp [extractLoop]]
      exact hrec

theorem childEvents_inert (c : Child) (hwf : childWF c = true) :
    ∀ e ∈ childEvents c, notGameEvent e = true := by
  cases c with
  | archiveSC a =>
    intro e he
    simp only [childEvents, List.mem_singleton] at he
    subst he
    rfl
  | archiveOC a inner =>
    intro e he
    simp only [childEvents, List.mem_cons, List.mem_append, List.mem_map,
      List.mem_singleton] at he
    rcases he with rfl | ⟨l, -, rfl⟩ | rfl | h0
    · rfl
    · cases l <;> rfl
    · rfl
    · exact absurd h0 (List.not_mem_nil _)
  | detailsSC a =>
    intro e he
    simp only [childEvents, List.mem_singleton] at he
    subst he
    rfl
  | detailsOC a inner =>
    intro e he
    simp only [childEvents, List.mem_cons, List.mem_append, List.mem_map,
      List.mem_singleton] at he
    rcases he with rfl | ⟨l, -, rfl⟩ | rfl | h0
    · rfl
    · cases l <;> rfl
    · rfl
    · exact absurd h0 (List.not_mem_nil _)
  | otherSC n a =>
    intro e he
    simp only [childWF, Bool.and_eq_true, Bool.not_eq_true', beq_eq_false_iff_ne] at hwf
    simp only [childEvents, List.mem_singleton] at he
    subst he
    simp [notGameEvent, hwf.1.1]
  | otherOC n a inner =>
    intro e he
    simp only [childWF, Bool.and_eq_true, Bool.not_eq_true', beq_eq_false_iff_ne] at hwf
    simp only [childEvents, List.mem_cons, List.mem_append, List.mem_map,
      List.mem_singleton] at he
    rcases he with rfl | ⟨l, -, rfl⟩ | rfl | h0
    · simp [notGameEvent, hwf.1.1]
    · cases l <;> rfl
    · rfl
    · exact absurd h0 (List.not_mem_nil _)
  | leaf l =>
    intro e he
    simp only [childEvents, List.mem_singleton] at he
    subst he
    cases l <;> rfl

theorem flatMap_childEvents_inert (cs : List Child) (hwf : ∀ c ∈ cs, childWF c = true) :
    ∀ e ∈ cs.flatMap childEvents, notGameEvent e = true := by
  intro e he
  rw [List.mem_flatMap] at he
  obtain ⟨c, hc, hec⟩ := he
  exact childEvents_inert c (hwf c hc) e hec

theorem extractLoop_skip_game (target idx : Nat) (d : Int) (out : List Event) (g : GameElem)
    (rest : List Event) (hwf : ∀ c ∈ g.children, childWF c = true) (hne : idx ≠ target) :
    extractLoop target idx false d out (gameEvents g ++ rest) =
      extractLoop target (idx + 1) false d out rest := by
  rw [gameEvents]
  by_cases hsc : g.selfClosed = true
  · rw [if_pos hsc]
    simp [extractLoop, hne]
  · rw [if_neg hsc, List.cons_append]
    rw [show extractLoop target idx false d out
        (Event.start "game" g.attrs :: ((g.children.flatMap childEvents ++ [Event.endE "game"])
          ++ rest)) =
      extractLoop target (idx + 1) false d out
        ((g.children.flatMap childEvents ++ [Event.endE "game"]) ++ rest) from by
        simp [extractLoop, hne]]
    rw [List.append_assoc]
    rw [extractLoop_skip_inert target (idx + 1) d out _ _
      (flatMap_childEvents_inert g.children hwf)]
    rw [show ([Event.endE "game"] : List Event) ++ rest = Event.endE "game" :: rest from rfl]
    simp [extractLoop]

theorem extractLoop_copy_leaves (target idx : Nat) (d : Int) :
    ∀ (inner : List Leaf) (out rest : List Event),
    extractLoop target idx true d out (inner.map leafEvent ++ rest) =
      extractLoop target idx true d (out ++ inner.map leafEvent) rest
  | [], out, rest => by simp
  | l :: inner, out, rest => by
    have hrec := extractLoop_copy_leaves target idx d inner (out ++ [leafEvent l]) rest
    rw [List.map_cons, List.cons_append]
    have hstep : extractLoop target idx true d out (leafEvent l :: (inner.map leafEvent ++ rest))
        = extractLoop target idx true d (out ++ [leafEvent l]) (inner.map leafEvent ++ rest) := by
      cases l <;> simp [extractLoop, leafEvent]
    rw [hstep, hrec, List.append_assoc]
    rfl

theorem extractLoop_copy_child (target idx : Nat) (d : Int) (hd : 1 ≤ d) (out : List Event)
    (c : Child) (rest : List Event) (hwf : childWF c = true) :
    extractLoop target idx true d out (childEvents c ++ rest) =
      extractLoop target idx true d (out ++ childEvents c) rest := by
  cases c with
  | archiveSC a =>
    simp [childEvents, extractLoop]
  | archiveOC a inner =>
    rw [childEvents, List.cons_append]
    rw [show extractLoop target idx true d out
        (Event.start "archive" a :: ((inner.map leafEvent ++ [Event.endE "archive"]) ++ rest)) =
      extractLoop target idx true (d + 1) (out ++ [Event.start "archive" a])
        ((inner.map leafEvent ++ [Event.endE "archive"]) ++ rest) from by
        simp [extractLoop]]
    rw [List.append_assoc, extractLoop_copy_leaves]
    rw [show ([Event.endE "archive"] : List Event) ++ rest = Event.endE "archive" :: rest
      from rfl]
    have hno : ¬(d = 0) := by omega
    rw [show extractLoop target idx true (d + 1)
        ((out ++ [Event.start "archive" a]) ++ inner.map leafEvent)
        (Event.endE "archive" :: rest) =
      extractLoop target idx true d
        (((out ++ [Event.start "archive" a]) ++ inner.map leafEvent) ++ [Event.endE "archive"])
        rest from by simp [extractLoop, hno]]
    rw [List.append_assoc, List.append_assoc]
    rfl
  | detailsSC a =>
    simp [childEvents, extractLoop]
  | detailsOC a inner =>
    rw [childEvents, List.cons_append]
    rw [show extractLoop target idx true d out
        (Event.start "details" a :: ((inner.map leafEvent ++ [Event.endE "details"]) ++ rest)) =
      extractLoop target idx true (d + 1) (out ++ [Event.start "details" a])
        ((inner.map leafEvent ++ [Event.endE "details"]) ++ rest) from by
        simp [extractLoop]]
    rw [List.append_assoc, extractLoop_copy_leaves]
    rw [show ([Event.endE "details"] : List Event) ++ rest = Event.endE "details" :: rest
      from rfl]
    have hno : ¬(d = 0) := by omega
    rw [show extractLoop target idx true (d + 1)
        ((out ++ [Event.start "details" a]) ++ inner.map leafEvent)
        (Event.endE "details" :: rest) =
      extractLoop target idx true d
        (((out ++ [Event.start "details" a]) ++ inner.map leafEvent) ++ [Event.endE "details"])
        rest from by simp [extractLoop, hno]]
    rw [List.append_assoc, List.append_assoc]
    rfl
  | otherSC n a =>
    simp only [childWF, Bool.and_eq_true, Bool.not_eq_true', beq_eq_false_iff_ne] at hwf
    simp [childEvents, extractLoop, hwf.1.1]
  | otherOC n a inner =>
    simp only [childWF, Bool.and_eq_true, Bool.not_eq_true', beq_eq_false_iff_ne] at hwf
    rw [childEvents, List.cons_append]
    rw [show extractLoop target idx true d out
        (Event.start n a :: ((inner.map leafEvent ++ [Event.endE n]) ++ rest)) =
      extractLoop target idx true (d + 1) (out ++ [Event.start n a])
        ((inner.map leafEvent ++ [Event.endE n]) ++ rest) from by
        simp [extractLoop, hwf.1.1]]
    rw [List.append_assoc, extractLoop_copy_leaves]
    rw [show ([Event.endE n] : List Event) ++ rest = Event.endE n :: rest from rfl]
    have hno : ¬(d = 0) := by omega
    rw [show extractLoop target idx true (d + 1)
        ((out ++ [Event.start n a]) ++ inner.map leafEvent) (Event.endE n :: rest) =
      extractLoop target idx true d
        (((out ++ [Event.start n a]) ++ inner.map leafEvent) ++ [Event.endE n]) rest from by
        simp [extractLoop, hno]]
    rw [List.append_assoc, List.append_assoc]
    rfl
  | leaf l =>
    have hstep : extractLoop target idx true d out (leafEvent l :: rest)
        = extractLoop target idx true d (out ++ [leafEvent l]) rest := by
      cases l <;> simp [extractLoop, leafEvent]
    rw [show childEvents (Child.leaf l) = [leafEvent l] from by cases l <;> rfl]
    exact hstep

theorem extractLoop_copy_children (target idx : Nat) (d : Int) (hd : 1 ≤ d) :
    ∀ (cs : List Child) (out rest : List Event), (∀ c ∈ cs, childWF c = true) →
    extractLoop target idx true d out (cs.flatMap childEvents ++ rest) =
      extractLoop target idx true d (out ++ cs.flatMap childEvents) rest
  | [], out, rest, _ => by simp
  | c :: cs, out, rest, hwf => by
    rw [List.flatMap_cons, List.append_assoc]
    rw [extractLoop_copy_child target idx d hd out c _ (hwf c (List.mem_cons_self c cs))]
    rw [extractLoop_copy_children target idx d hd cs (out ++ childEvents c) rest
      (fun c' hc' => hwf c' (List.mem_cons_of_mem c hc'))]
    rw [List.append_assoc]

theorem extractLoop_capture (target : Nat) (d : Int) (out : List Event) (g : GameElem)
    (rest : List Event) (hwf : ∀ c ∈ g.children, childWF c = true) :
    extractLoop target target false d out (gameEvents g ++ rest) = out ++ gameEvents g := by
  rw [gameEvents]
  by_cases hsc : g.selfClosed = true
  · rw [if_pos hsc]
    simp [extractLoop]
  · rw [if_neg hsc, List.cons_append]
    rw [show extractLoop target target false d out
        (Event.start "game" g.attrs ::
          ((g.children.flatMap childEvents ++ [Event.endE "game"]) ++ rest)) =
      extractLoop target target true 1 (out ++ [Event.start "game" g.attrs])
        ((g.children.flatMap childEvents ++ [Event.endE "game"]) ++ rest) from by
        simp [extractLoop]]
    rw [List.append_assoc]
    rw [extractLoop_copy_children target target 1 (by omega) g.children _ _ hwf]
    rw [show ([Event.endE "game"] : List Event) ++ rest = Event.endE "game" :: rest from rfl]
    rw [show extractLoop target target true 1
        ((out ++ [Event.start "game" g.attrs]) ++ g.children.flatMap childEvents)
        (Event.endE "game" :: rest) =
      ((out ++ [Event.start "game" g.attrs]) ++ g.children.flatMap childEvents)
        ++ [Event.endE "game"] from by simp [extractLoop]]
    rw [List.append_assoc, List.append_assoc]
    rfl

theorem extractLoop_games_skip_all (target : Nat) (d : Int) (out : List Event) :
    ∀ (gs : List GameElem) (idx : Nat) (rest : List Event),
    (∀ g ∈ gs, ∀ c ∈ g.children, childWF c = true) →
    idx + gs.length ≤ target →
    extractLoop target idx false d out (gs.flatMap gameEvents ++ rest) =
      extractLoop target (idx + gs.length) false d out rest
  | [], idx, rest, _, _ => by simp
  | g :: gs, idx, rest, hwf, hle => by
    rw [List.flatMap_cons, List.append_assoc]
    rw [extractLoop_skip_game target idx d out g _ (hwf g (List.mem_cons_self g gs))
      (by simp only [List.length_cons] at hle; omega)]
    rw [extractLoop_games_skip_all target d out gs (idx + 1) rest
      (fun g' hg' => hwf g' (List.mem_cons_of_mem g hg'))
      (by simp only [List.length_cons] at hle; omega)]
    simp only [List.length_cons]
    have h2 : idx + 1 + gs.length = idx + (gs.length + 1) := by omega
    rw [h2]

theorem extractLoop_games_found (target : Nat) (d : Int) (out : List Event) :
    ∀ (gs : List GameElem) (idx i : Nat) (rest : List Event) (g : GameElem),
    (∀ g' ∈ gs, ∀ c ∈ g'.children, childWF c = true) →
    gs[i]? = some g → target = idx + i →
    extractLoop target idx false d out (gs.flatMap gameEvents ++ rest) = out ++ gameEvents g
  | [], _, i, _, _, _, hg, _ => by simp at hg
  | g' :: gs, idx, 0, rest, g, hwf, hg, ht => by
    rw [List.getElem?_cons_zero] at hg
    obtain rfl := Option.some.inj hg
    rw [List.flatMap_cons, List.append_assoc]
    rw [show idx = target from by omega]
    exact extractLoop_capture target d out g' _ (hwf g' (List.mem_cons_self g' gs))
  | g' :: gs, idx, i + 1, rest, g, hwf, hg, ht => by
    rw [List.getElem?_cons_succ] at hg
    rw [List.flatMap_cons, List.append_assoc]
    rw [extractLoop_skip_game target idx d out g' _ (hwf g' (List.mem_cons_self g' gs))
      (by omega)]
    exact extractLoop_games_found target d out gs (idx + 1) i rest g
      (fun g'' hg'' => hwf g'' (List.mem_cons_of_mem g' hg'')) hg (by omega)

theorem extract_doc_found (root : String) (gs : List GameElem) (t : Nat) (g : GameElem)
    (hroot : root ≠ "game") (hwf : ∀ g' ∈ gs, ∀ c ∈ g'.children, childWF c = true)
    (hg : gs[t]? = some g) :
    extractLoop t 0 false 0 [] (docEvents root gs) = gameEvents g := by
  rw [docEvents]
  rw [show extractLoop t 0 false 0 []
      (Event.start root [] :: (gs.flatMap gameEvents ++ [Event.endE root])) =
    extractLoop t 0 false 0 [] (gs.flatMap gameEvents ++ [Event.endE root]) from by
      simp [extractLoop, hroot]]
  rw [extractLoop_games_found t 0 [] gs 0 t _ g hwf hg (by omega)]
  rfl

theorem extract_doc_beyond (root : String) (gs : List GameElem) (t : Nat)
    (hroot : root ≠ "game") (hwf : ∀ g ∈ gs, ∀ c ∈ g.children, childWF c = true)
    (ht : gs.length ≤ t) :
    extractLoop t 0 false 0 [] (docEvents root gs) = [] := by
  rw [docEvents]
  rw [show extractLoop t 0 false 0 []
      (Event.start root [] :: (gs.flatMap gameEvents ++ [Event.endE root])) =
    extractLoop t 0 false 0 [] (gs.flatMap gameEvents ++ [Event.endE root]) from by
      simp [extractLoop, hroot]]
  rw [extractLoop_games_skip_all t 0 [] gs 0 [Event.endE root] hwf (by omega)]
  simp [extractLoop]

/-- Claim C8: for every document and every target index at or beyond the
number of game elements in it, the fragment extractor returns successfully
with the empty string rather than an error. -/
theorem C8_extract_beyond_count (root : String) (gs : List GameElem) (t : Nat)
    (hroot : root ≠ "game")
    (hwf : ∀ g ∈ gs, ∀ c ∈ g.children, childWF c = true)
    (ht : gs.length ≤ t) :
    extract_game_xml_by_index (docEvents root gs) t = "" := by
  rw [extract_game_xml_by_index, extract_doc_beyond root gs t hroot hwf ht]
  rfl

/-- Witness for claim C8: a one-game document queried at index 5 yields
the empty string. -/
theorem C8_extract_beyond_count_witness :
    extract_game_xml_by_index (docEvents "datafile" [c7Game]) 5 = "" :=
  C8_extract_beyond_count "datafile" [c7Game] 5 (by decide) (by decide) (by decide)

/-- Claim C2, amended: for a document whose game elements all carry a name
attribute, are in open/close form and have well-formed children, every
entry e produced by the streaming parser has game index equal to its
element's position, and the fragment extractor invoked with e's game index
returns exactly the serialized text of the game element that produced e.
The restriction is forced: the parser skips nameless and self-closing game
elements when assigning indices while the extractor counts every game
element, so the two countings diverge on other documents (see the
counterexample). -/
theorem C2_amended (fname root : String) (gs : List GameElem)
    (hroot : root ≠ "game")
    (hall : ∀ g ∈ gs, (∀ c ∈ g.children, childWF c = true) ∧
      (lastAttr "name" g.attrs).isSome = true ∧ g.selfClosed = false)
    (i : Nat) (e : GameEntry)
    (he : (parse_games_from_file fname (docEvents root gs))[i]? = some e) :
    ∃ g, gs[i]? = some g ∧ e.game_idx = i ∧
      extract_game_xml_by_index (docEvents root gs) e.game_idx =
        serializeEvents (gameEvents g) := by
  rw [parse_docEvents fname root gs hroot hall, specEntries_getElem] at he
  cases hg : gs[i]? with
  | none =>
    rw [hg] at he
    exact Option.noConfusion (show (none : Option GameEntry) = some e from he)
  | some g =>
    rw [hg] at he
    have he2 : mkEntrySpec ((infer_platform_from_filename fname).getD "Unknown") fname (0 + i) g
        = e := Option.some.inj he
    have hidx : e.game_idx = i := by
      rw [← he2]
      simp [mkEntrySpec]
    refine ⟨g, rfl, hidx, ?_⟩
    rw [hidx, extract_game_xml_by_index,
      extract_doc_found root gs i g hroot (fun g' hg' => (hall g' hg').1) hg]

/-- The three-game document of the C2 witness. -/
def c2wDoc : List GameElem :=
  [{ attrs := [("name", "A")], selfClosed := false, children := [] },
   { attrs := [("name", "B")], selfClosed := false,
     children := [.leaf (.comment " here ")] },
   { attrs := [("name", "C")], selfClosed := false, children := [] }]

/-- The entry the parser emits at position 1 of the C2 witness document. -/
def c2wEntry : GameEntry :=
  { platform := "f"
    name := "B"
    archive_name := none
    region := none
    languages := none
    file_path := "f.xml"
    game_idx := 1 }

/-- Witness for claim C2 amended: in a document with games at positions
0, 1, 2, the entry at position 1 has game index 1, and extraction at index
1 returns exactly the serialized second game element, inner comment
included. -/
theorem C2_amended_witness :
    ∃ g, c2wDoc[1]? = some g ∧ c2wEntry.game_idx = 1 ∧
      extract_game_xml_by_index (docEvents "datafile" c2wDoc) c2wEntry.game_idx =
        serializeEvents (gameEvents g) :=
  C2_amended "f.xml" "datafile" c2wDoc (by decide) (by decide) 1 c2wEntry (by rfl)

/-- The nameless first game of the C2 counterexample. -/
def c2G1 : GameElem :=
  { attrs := [("region", "EU")], selfClosed := false, children := [] }

/-- The named second game of the C2 counterexample. -/
def c2G2 : GameElem :=
  { attrs := [("name", "X")], selfClosed := false, children := [] }

/-- Counterexample to claim C2 as stated: with a nameless game element
before a named one, the parser emits one entry, for the second element,
with game index 0; the extractor at index 0 returns the serialized text of
the FIRST game element, which is not the text of the element that produced
the entry. -/
theorem C2_counterexample :
    (parse_games_from_file "f.xml" (docEvents "datafile" [c2G1, c2G2])).map
      (fun e => (e.name, e.game_idx)) = [("X", 0)] ∧
    extract_game_xml_by_index (docEvents "datafile" [c2G1, c2G2]) 0 =
      serializeEvents (gameEvents c2G1) ∧
    serializeEvents (gameEvents c2G1) ≠ serializeEvents (gameEvents c2G2) := by
  refine ⟨rfl, rfl, by decide⟩

/-- A state in the middle of a named game holding a game-level region. -/
def c6StateA : PState :=
  { initPState with current_game_name := some "X", current_game_region := some "EU" }

/-- A state in the middle of a nameless game holding a game-level region. -/
def c6StateB : PState :=
  { initPState with current_game_region := some "EU" }

/-- Witness for claim C6 amended, at one state holding a captured name and
one state holding none. -/
theorem C6_amended_witness :
    (step "P" "f" c6StateA (.endE "game")).current_game_region = none ∧
    (step "P" "f" c6StateB (.endE "game")).current_game_region = some "EU" :=
  ⟨(((C6_amended "P" "f" c6StateA).2.1) (by decide)).2.2.2.1,
   (((C6_amended "P" "f" c6StateB).2.2) (by decide)).2.2.2.1⟩

/-- Counterexample to claim C6 as stated: after the parser leaves a
nameless game element carrying a region attribute, the game-level region
holder is not cleared, and the leaked value becomes the region of the next
named game, which itself carries no region anywhere. -/
theorem C6_counterexample :
    (parseState "f.xml"
      [.start "game" [("region", "EU")], .endE "game"]).current_game_region = some "EU" ∧
    (parse_games_from_file "f.xml"
      [.start "game" [("region", "EU")], .endE "game",
       .start "game" [("name", "X")], .endE "game"]).map (fun g => (g.name, g.region)) =
      [("X", some "EU")] := by
  constructor
  · decide
  · decide

end RGM
